import Mathlib

/-!
# apicli: module resolution, request merging and template rendering

A shallow embedding of `pkg/config/loader.go` (`CollectModuleInfo`,
`MergeRequestConfigs`), `pkg/template/template.go` (`Render`,
`convertToString`, `ValidateType`), `pkg/api/api.go` (`convertParamValue`),
`pkg/history/manager.go` (`AddEntry`) and `pkg/client/client.go`
(`addQueryParams`, `addHeaders`), together with the properties stated for
them.

Conventions of the embedding:

* a Go `string` is a `List Char` (`Str`); the only delimiters the code looks
  for (`$`, `{`, `}`) are ASCII, so scanning characters and scanning bytes
  of valid UTF-8 agree;
* a Go `map[string]V` is an association list read by `mapGet` (first entry
  for the key) and written by `mapSet`; a `range` loop over a map visits the
  entries of the list, so a statement quantified over all lists covers every
  iteration order;
* a Go slice is a `List` (a nil slice is `[]`);
* a Go `error` is its message (`Str`); a function returning `(T, error)`
  returns a pair whose second component is `none` for a nil error;
* a Go `int` has 64 bits (`IntSize`); the library functions the code calls
  (`regexp`, `strings`, `strconv`) are modelled by what they compute, and
  `strconv.ParseFloat` only by whether it fails, as a parameter;
* the history file is a state (`HistoryFile`) and the outcome of writing it is
  a parameter of `SaveHistory`.
-/

namespace Apicli

/-- Go strings, as lists of characters. -/
abbrev Str := List Char

/-! ## Maps -/

/-- Map read `v, ok := m[k]`: `none` when the key is absent. -/
def mapGet {V : Type} : List (Str × V) → Str → Option V
  | [], _ => none
  | (k', v) :: rest, k => if k' = k then some v else mapGet rest k

/-- Map write `m[k] = v`. -/
def mapSet {V : Type} : List (Str × V) → Str → V → List (Str × V)
  | [], k, v => [(k, v)]
  | (k', v') :: rest, k, v =>
    if k' = k then (k, v) :: rest else (k', v') :: mapSet rest k v

/-- The keys of a map are pairwise distinct. -/
def KeysNodup {V : Type} (m : List (Str × V)) : Prop :=
  (m.map Prod.fst).Nodup

instance {V : Type} (m : List (Str × V)) : Decidable (KeysNodup m) := by
  unfold KeysNodup; infer_instance

/-! ## Configuration types (`pkg/config/types.go`) -/

/-- ParamDef represents a parameter definition (`Typ` is the field `Type`). -/
structure ParamDef where
  Name : Str
  Typ : Str
  Required : Bool
  Description : Str
  deriving DecidableEq, Repr

/-- RequestConfig represents module-level request configuration. -/
structure RequestConfig where
  Headers : List (Str × Str)
  deriving DecidableEq, Repr

/-- QueryParam represents a URL query parameter. -/
structure QueryParam where
  Name : Str
  Value : Str
  deriving DecidableEq, Repr

/-- RequestSpec represents API-specific request configuration. -/
structure RequestSpec where
  Method : Str
  URL : Str
  Body : Str
  BodyFile : Str
  Form : List (Str × Str)
  Params : List QueryParam
  Headers : List (Str × Str)
  deriving DecidableEq, Repr

/-- APISpec represents an API specification. -/
structure APISpec where
  Params : List ParamDef
  Request : RequestSpec
  deriving DecidableEq, Repr

/-- Module represents an API module configuration.  `Request` is a pointer
(`none` when nil) and `Modules` is a map that the code tests against nil
(`none` when nil); a nil `APIs` map reads like an empty one. -/
inductive Module where
  | mk (Description : Str) (Params : List ParamDef) (Request : Option RequestConfig)
      (Modules : Option (List (Str × Module))) (APIs : List (Str × APISpec))

namespace Module

/-- Field `Params`. -/
def Params : Module → List ParamDef
  | mk _ p _ _ _ => p

/-- Field `Request`. -/
def Request : Module → Option RequestConfig
  | mk _ _ r _ _ => r

/-- Field `Modules`. -/
def Modules : Module → Option (List (Str × Module))
  | mk _ _ _ m _ => m

/-- Field `APIs`. -/
def APIs : Module → List (Str × APISpec)
  | mk _ _ _ _ a => a

end Module

/-! ## Module resolution (`pkg/config/loader.go`) -/

/-- The four results of `CollectModuleInfo`. -/
structure CollectResult where
  params : List ParamDef
  reqs : List RequestConfig
  apiSpec : Option APISpec
  err : Option Str
  deriving DecidableEq, Repr

/-- The `return nil, nil, nil, err` of `CollectModuleInfo`. -/
def CollectResult.fail (msg : Str) : CollectResult :=
  { params := [], reqs := [], apiSpec := none, err := some msg }

/-- CollectModuleInfo collects all parameters and request configurations from
the module chain. -/
def CollectModuleInfo (modules : List (Str × Module)) :
    List Str → Str → CollectResult
  | [], _ => CollectResult.fail "invalid module path".toList
  | currentName :: tail, apiName =>
    match mapGet modules currentName with
    | none =>
      CollectResult.fail ("module '".toList ++ currentName ++ "' not found".toList)
    | some currentModule =>
      let params := currentModule.Params
      let reqs :=
        match currentModule.Request with
        | some r => [r]
        | none => []
      match tail with
      | next :: rest =>
        match currentModule.Modules with
        | none =>
          CollectResult.fail ("submodule '".toList ++ next ++
            "' not found in module '".toList ++ currentName ++ "'".toList)
        | some subModules =>
          let child := CollectModuleInfo subModules (next :: rest) apiName
          match child.err with
          | some e => CollectResult.fail e
          | none =>
            { params := params ++ child.params, reqs := reqs ++ child.reqs,
              apiSpec := child.apiSpec, err := none }
      | [] =>
        match mapGet currentModule.APIs apiName with
        | some apiSpec =>
          { params := params, reqs := reqs, apiSpec := some apiSpec, err := none }
        | none =>
          CollectResult.fail ("API '".toList ++ apiName ++
            "' not found in module '".toList ++ currentName ++ "'".toList)

/-- The loop `for k, v := range headers { merged[k] = v }`. -/
def applyHeaders (merged : List (Str × Str)) (headers : List (Str × Str)) :
    List (Str × Str) :=
  headers.foldl (fun acc kv => mapSet acc kv.1 kv.2) merged

/-- MergeRequestConfigs merges all request configurations in the module
chain.  Ranging over a nil `Headers` map does nothing, so the nil test on the
API headers needs no case of its own. -/
def MergeRequestConfigs (moduleReqs : List RequestConfig) (apiReq : RequestSpec) :
    RequestSpec :=
  let mergedHeaders := moduleReqs.foldl (fun acc req => applyHeaders acc req.Headers) []
  let mergedHeaders := applyHeaders mergedHeaders apiReq.Headers
  { apiReq with Headers := mergedHeaders }

/-! ## Template rendering (`pkg/template/template.go`) -/

/-- The parameter values a renderer holds (`interface{}`): strings, integers
(a Go `int` is one of the integers) and booleans, which is what the command
line produces, and ordered sequences of values.  Floating-point numbers and
unordered mappings are not part of this universe. -/
inductive Value where
  | str (s : Str)
  | int (i : Int)
  | bool (b : Bool)
  | seq (items : List Value)

/-- Decimal form of an integer (`strconv.Itoa`). -/
def Itoa (i : Int) : Str :=
  if i < 0 then '-' :: Nat.toDigits 10 i.natAbs else Nat.toDigits 10 i.natAbs

/-- Text of a boolean (`strconv.FormatBool`). -/
def FormatBool (b : Bool) : Str :=
  if b then "true".toList else "false".toList

/-- Concatenation with a separator (`strings.Join`). -/
def Join : List Str → Str → Str
  | [], _ => []
  | [a], _ => a
  | a :: b :: rest, sep => a ++ sep ++ Join (b :: rest) sep

mutual
/-- convertToString converts a value to a string. -/
def convertToString : Value → Str × Option Str
  | .str v => (v, none)
  | .int v => (Itoa v, none)
  | .bool v => (FormatBool v, none)
  | .seq items =>
    match convertItems items with
    | (_, some err) => ([], some err)
    | (parts, none) => (Join parts ",".toList, none)
/-- The loop of `convertToString` over the items of a sequence. -/
def convertItems : List Value → List Str × Option Str
  | [] => ([], none)
  | item :: rest =>
    match convertToString item with
    | (_, some err) => ([], some err)
    | (str, none) =>
      match convertItems rest with
      | (_, some err) => ([], some err)
      | (parts, none) => (str :: parts, none)
end

/-- Substring test (`strings.Contains`). -/
def Contains : Str → Str → Bool
  | [], sub => sub.isEmpty
  | c :: t, sub => sub.isPrefixOf (c :: t) || Contains t sub

/-- The character class `[^\x7d]`: any character but the closing brace. -/
def isNameChar (c : Char) : Bool :=
  decide (c ≠ '}')

/-- A match of the pattern `\$\x7b([^\x7d]+)\x7d` that starts at the first
character of `s`: the variable name (the longest run of characters other
than the closing brace, which must be non-empty and followed by a closing
brace) and the text after the match.  The run stops at the end of the text
or at a closing brace, so the character after a run that stops inside the
text is the closing brace of the match. -/
def matchHere : Str → Option (Str × Str)
  | c0 :: c1 :: t =>
    if c0 = '$' ∧ c1 = '{' then
      match t.takeWhile isNameChar, t.dropWhile isNameChar with
      | n :: ns, _ :: rest => some (n :: ns, rest)
      | _, _ => none
    else none
  | _ => none

/-- The text `$\x7bname\x7d` of a placeholder. -/
def marker (name : Str) : Str :=
  '$' :: '{' :: (name ++ ['}'])

/-- Leftmost non-overlapping matches, scanning at most `fuel` positions: each
match is the pair of the full match and the variable name. -/
def findAllAux : Nat → Str → List (Str × Str)
  | 0, _ => []
  | fuel + 1, s =>
    match matchHere s with
    | some (name, rest) => (marker name, name) :: findAllAux fuel rest
    | none =>
      match s with
      | [] => []
      | _ :: t => findAllAux fuel t

/-- All matches of the placeholder pattern in `s`
(`re.FindAllStringSubmatch(s, -1)`); every step of the scan consumes a
character, so `s.length` steps reach the end of `s`. -/
def FindAllStringSubmatch (s : Str) : List (Str × Str) :=
  findAllAux s.length s

/-- Replacement of the leftmost non-overlapping instances of a non-empty
`old`, scanning at most `fuel` positions. -/
def replaceAux (old new : Str) : Nat → Str → Str
  | 0, s => s
  | fuel + 1, s =>
    if old.isPrefixOf s then new ++ replaceAux old new fuel (s.drop old.length)
    else
      match s with
      | [] => []
      | c :: t => c :: replaceAux old new fuel t

/-- Replacement of all non-overlapping instances of `old` by `new`
(`strings.Replace(s, old, new, -1)`); an empty `old` matches before every
character and at the end. -/
def Replace (s old new : Str) : Str :=
  if old = [] then new ++ s.flatMap (fun c => c :: new)
  else replaceAux old new s.length s

/-- The loop of `Render` over the matches. -/
def renderLoop (params : List (Str × Value)) : List (Str × Str) → Str → Str × Option Str
  | [], result => (result, none)
  | (fullMatch, varName) :: rest, result =>
    match mapGet params varName with
    | none => ([], some ("parameter '".toList ++ varName ++ "' not found".toList))
    | some value =>
      match convertToString value with
      | (_, some err) =>
        ([], some ("converting value for parameter '".toList ++ varName ++ "': ".toList ++ err))
      | (strValue, none) => renderLoop params rest (Replace result fullMatch strValue)

/-- Render substitutes template variables in the given string with their
corresponding values. -/
def Render (params : List (Str × Value)) (tmpl : Str) : Str × Option Str :=
  if !Contains tmpl ['$', '{'] then (tmpl, none)
  else renderLoop params (FindAllStringSubmatch tmpl) tmpl

/-! ## Integer parsing (`strconv.Atoi`, as `ValidateType` and `convertParamValue` use it) -/

/-- The size in bits of a Go `int` (`strconv.IntSize`), on a 64-bit platform. -/
def IntSize : Nat := 64

/-- The largest `uint64`. -/
def maxUint64 : Nat := 2 ^ 64 - 1

/-- A decimal digit, `'0' <= c && c <= '9'`. -/
def isDigit (c : Char) : Bool :=
  decide ('0'.toNat ≤ c.toNat ∧ c.toNat ≤ '9'.toNat)

/-- The value `c - '0'` of a digit. -/
def digitVal (c : Char) : Nat :=
  c.toNat - '0'.toNat

/-- The loop of `strconv.ParseUint(s, 10, 0)` over the characters left, with
the value `n` read so far: a character that is not a digit is a syntax error;
a value that leaves the 64 bits, or exceeds the largest value of `IntSize`
bits, is a range error, reported as soon as it is met, with the largest value
as result. -/
def parseUintLoop : Str → Nat → Nat × Option Str
  | [], n => (n, none)
  | c :: rest, n =>
    if isDigit c then
      if n ≥ maxUint64 / 10 + 1 then (2 ^ IntSize - 1, some "value out of range".toList)
      else
        let n1 := n * 10 + digitVal c
        if n1 > maxUint64 ∨ n1 > 2 ^ IntSize - 1 then
          (2 ^ IntSize - 1, some "value out of range".toList)
        else parseUintLoop rest n1
    else (0, some "invalid syntax".toList)

/-- Unsigned decimal parsing (`strconv.ParseUint(s, 10, 0)`). -/
def ParseUint (s : Str) : Nat × Option Str :=
  if s = [] then (0, some "invalid syntax".toList) else parseUintLoop s 0

/-- Signed decimal parsing (`strconv.ParseInt(s, 10, 0)`): an optional sign,
then `ParseUint`; a magnitude that does not fit the `IntSize` bits of an `int`
is a range error with the nearest `int` as result. -/
def ParseInt (s : Str) : Int × Option Str :=
  match s with
  | [] => (0, some "invalid syntax".toList)
  | c :: t =>
    let neg := decide (c = '-')
    let digits := if c = '+' ∨ c = '-' then t else c :: t
    match ParseUint digits with
    | (un, some err) =>
      if err = "value out of range".toList then
        if !neg ∧ un ≥ 2 ^ (IntSize - 1) then
          ((2 : Int) ^ (IntSize - 1) - 1, some "value out of range".toList)
        else if neg ∧ un > 2 ^ (IntSize - 1) then
          (-(2 : Int) ^ (IntSize - 1), some "value out of range".toList)
        else (if neg then -(un : Int) else (un : Int), none)
      else (0, some err)
    | (un, none) =>
      if !neg ∧ un ≥ 2 ^ (IntSize - 1) then
        ((2 : Int) ^ (IntSize - 1) - 1, some "value out of range".toList)
      else if neg ∧ un > 2 ^ (IntSize - 1) then
        (-(2 : Int) ^ (IntSize - 1), some "value out of range".toList)
      else (if neg then -(un : Int) else (un : Int), none)

/-- Decimal text to `int` (`strconv.Atoi`).  Its fast path for short texts
computes what `ParseInt(s, 10, 0)` computes (a text of fewer than 19
characters cannot leave the range), so `Atoi` is `ParseInt`; the error is
the underlying cause, without the quoted input that Go adds to the message. -/
def Atoi (s : Str) : Int × Option Str :=
  ParseInt s

/-! ## Type validation (`pkg/template/template.go`) and conversion (`pkg/api/api.go`) -/

/-- Prefix test (`strings.HasPrefix`). -/
def HasPrefix (s pre : Str) : Bool :=
  pre.isPrefixOf s

/-- Suffix test (`strings.HasSuffix`). -/
def HasSuffix (s suf : Str) : Bool :=
  suf.isSuffixOf s

/-- ValidateType validates if a value matches the expected type; the result is
the error (`none` for nil).  Whether `strconv.ParseFloat(value, 64)` returns an
error is the parameter `parseFloatFails`. -/
def ValidateType (parseFloatFails : Str → Bool) (value typeName : Str) : Option Str :=
  if HasPrefix typeName "array[".toList then
    if !HasPrefix value "[".toList || !HasSuffix value "]".toList then
      some "value must be an array".toList
    else none
  else if typeName = "integer".toList then
    if (Atoi value).2 ≠ none then some "value must be an integer".toList else none
  else if typeName = "boolean".toList then
    if value ≠ "true".toList ∧ value ≠ "false".toList then
      some "value must be a boolean".toList
    else none
  else if typeName = "number".toList then
    if parseFloatFails value then some "value must be a number".toList else none
  else none

/-- The conversion of a validated raw value to a parameter value
(`CLI.convertParamValue`). -/
def convertParamValue (paramType value : Str) : Value :=
  if paramType = "integer".toList then .int (Atoi value).1
  else if paramType = "boolean".toList then .bool (decide (value = "true".toList))
  else .str value

/-! ## History (`pkg/history`) -/

/-- Request represents the request details in a history entry. -/
structure HistoryRequest where
  Method : Str
  URL : Str
  Headers : List (Str × Str)
  Body : Str
  Form : List (Str × Str)
  QueryParams : List (Str × Str)
  deriving DecidableEq, Repr

/-- Response represents the response details in a history entry. -/
structure HistoryResponse where
  StatusCode : Int
  Headers : List (Str × Str)
  Body : Str
  deriving DecidableEq, Repr

/-- An instant (`time.Time`), as far as the history needs it: its calendar
year, which decides whether the instant has a JSON form, and its place within
the year, in nanoseconds.  The time zone is not part of it: every instant
here is in a zone whose offset is less than a day. -/
structure Time where
  year : Int
  nanos : Nat
  deriving DecidableEq, Repr

/-- Entry represents a single request history entry. -/
structure Entry where
  ID : Str
  Timestamp : Time
  Module : Str
  API : Str
  Parameters : List (Str × Str)
  Request : HistoryRequest
  Response : HistoryResponse
  deriving DecidableEq, Repr

/-- History represents the collection of history entries. -/
structure History where
  Entries : List Entry
  deriving DecidableEq, Repr

/-- The history file as `LoadHistory` finds it: missing, unreadable (with the
error of the read), not a JSON history (with the error of the parser), or
holding the JSON form of a history. -/
inductive HistoryFile where
  | missing
  | unreadable (err : Str)
  | malformed (err : Str)
  | stored (history : History)
  deriving DecidableEq, Repr

/-- LoadHistory loads the request history from file.  The nil pointer returned
with an error is the empty history here; no caller reads it. -/
def LoadHistory : HistoryFile → History × Option Str
  | .missing => ({ Entries := [] }, none)
  | .unreadable err => ({ Entries := [] }, some ("reading history file: ".toList ++ err))
  | .malformed err => ({ Entries := [] }, some ("parsing history file: ".toList ++ err))
  | .stored history => (history, none)

/-- The error of `json.MarshalIndent(history, "", "  ")`, if it fails.  The
strings, numbers and string maps of an entry always have a JSON form; a
timestamp has one only when its year is within 0 and 9999
(`Time.MarshalJSON`). -/
def marshalIndentError (history : History) : Option Str :=
  if history.Entries.any
      (fun e => decide (e.Timestamp.year < 0 ∨ e.Timestamp.year > 9999)) then
    some ("json: error calling MarshalJSON for type time.Time: ".toList ++
      "Time.MarshalJSON: year outside of range [0,9999]".toList)
  else none

/-- SaveHistory saves the request history to file: the file after the call
and the error.  A history that cannot be serialised is not written.
`writeErr` is the error of `os.WriteFile`, if it fails; the file is then taken
to be left as it was. -/
def SaveHistory (file : HistoryFile) (writeErr : Option Str) (history : History) :
    HistoryFile × Option Str :=
  match marshalIndentError history with
  | some err => (file, some ("serializing history: ".toList ++ err))
  | none =>
    match writeErr with
    | some err => (file, some ("writing history file: ".toList ++ err))
    | none => (.stored history, none)

/-- AddEntry adds a new entry to the history. -/
def AddEntry (file : HistoryFile) (writeErr : Option Str) (entry : Entry) :
    HistoryFile × Option Str :=
  match LoadHistory file with
  | (_, some err) => (file, some err)
  | (history, none) =>
    let entries := [entry] ++ history.Entries
    let entries := if entries.length > 100 then entries.take 100 else entries
    SaveHistory file writeErr { history with Entries := entries }

/-! ## Query parameters and headers of a request (`pkg/client/client.go`) -/

/-- The bytes of a character in UTF-8. -/
def utf8Bytes (c : Char) : List Nat :=
  let v := c.toNat
  if v < 128 then [v]
  else if v < 2048 then [192 + v / 64, 128 + v % 64]
  else if v < 65536 then [224 + v / 4096, 128 + v / 64 % 64, 128 + v % 64]
  else [240 + v / 262144, 128 + v / 4096 % 64, 128 + v / 64 % 64, 128 + v % 64]

/-- A hexadecimal digit, in upper case. -/
def upperHex (n : Nat) : Char :=
  "0123456789ABCDEF".toList.getD n '0'

/-- The escape `%XX` of a byte. -/
def escapeByte (b : Nat) : Str :=
  ['%', upperHex (b / 16), upperHex (b % 16)]

/-- The characters `url.QueryEscape` keeps: letters, digits, `-`, `_`, `.`
and `~`. -/
def isUnreserved (c : Char) : Bool :=
  c.isAlphanum || c = '-' || c = '_' || c = '.' || c = '~'

/-- Escaping of a text for a query (`url.QueryEscape`): a space becomes `+`,
every byte of any other character that is not kept becomes `%XX`. -/
def QueryEscape (s : Str) : Str :=
  s.flatMap (fun c =>
    if isUnreserved c then [c]
    else if c = ' ' then ['+']
    else (utf8Bytes c).flatMap escapeByte)

/-- The order of Go strings: byte by byte, which for UTF-8 is character by
character. -/
def strLess : Str → Str → Bool
  | [], [] => false
  | [], _ :: _ => true
  | _ :: _, [] => false
  | a :: as, b :: bs => decide (a.toNat < b.toNat) || (decide (a = b) && strLess as bs)

/-- Insertion of a key into a sorted list of keys. -/
def insertKey (k : Str) : List Str → List Str
  | [] => [k]
  | x :: xs => if strLess x k then x :: insertKey k xs else k :: x :: xs

/-- The keys in increasing order (`slices.Sort`). -/
def sortKeys (keys : List Str) : List Str :=
  keys.foldr insertKey []

/-- The method `Add` of `url.Values` (a `map[string][]string`):
`v[key] = append(v[key], value)`. -/
def valuesAdd (v : List (Str × List Str)) (key value : Str) : List (Str × List Str) :=
  mapSet v key ((mapGet v key).getD [] ++ [value])

/-- The method `Encode` of `url.Values`: the pairs `key=value`, escaped, joined
by `&`, the keys in increasing order and the values of a key in the order they
were added. -/
def Encode (v : List (Str × List Str)) : Str :=
  Join ((sortKeys (v.map Prod.fst)).flatMap (fun k =>
    ((mapGet v k).getD []).map (fun x => QueryEscape k ++ ['='] ++ QueryEscape x)))
    ['&']

/-- The outcome of `addQueryParams`: the query values `q` after the loop, the
`RawQuery` written to the URL of the request, the map recorded for the
history, and the error. -/
structure QueryResult where
  query : List (Str × List Str)
  rawQuery : Str
  history : List (Str × Str)
  err : Option Str
  deriving DecidableEq, Repr

/-- The loop of `addQueryParams` over the query parameters of the spec. -/
def addQueryLoop (params : List (Str × Value)) :
    List QueryParam → List (Str × List Str) → List (Str × Str) →
      List (Str × List Str) × List (Str × Str)
  | [], q, historyParams => (q, historyParams)
  | param :: rest, q, historyParams =>
    match Render params param.Value with
    | (value, err) =>
      if err = none ∧ value ≠ [] then
        addQueryLoop params rest (valuesAdd q param.Name value)
          (mapSet historyParams param.Name value)
      else addQueryLoop params rest q historyParams

/-- The method `Client.addQueryParams`; `q` is `req.URL.Query()`, the query
values the URL of the request already has. -/
def addQueryParams (params : List (Str × Value)) (qps : List QueryParam)
    (q : List (Str × List Str)) (historyParams : List (Str × Str)) : QueryResult :=
  match addQueryLoop params qps q historyParams with
  | (q', historyParams') =>
    { query := q', rawQuery := Encode q', history := historyParams', err := none }

/-- The bytes a header key may have (`validHeaderFieldByte`): letters, digits
and the token punctuation, among it the apostrophe and the backquote. -/
def validHeaderFieldByte (c : Char) : Bool :=
  c.isAlphanum || "!#$%&*+-.^_|~".toList.contains c || c = Char.ofNat 39 || c = Char.ofNat 96

/-- The loop of `canonicalMIMEHeaderKey`: upper case for the first letter and
after each dash, lower case elsewhere. -/
def canonicalLoop : Bool → Str → Str
  | _, [] => []
  | upper, c :: rest =>
    let c' := if upper && c.isLower then c.toUpper
      else if !upper && c.isUpper then c.toLower else c
    c' :: canonicalLoop (decide (c' = '-')) rest

/-- The canonical form of a header key (`textproto.CanonicalMIMEHeaderKey`):
a key with a byte that a header key may not have is left as it is. -/
def CanonicalMIMEHeaderKey (s : Str) : Str :=
  if s.all validHeaderFieldByte then canonicalLoop true s else s

/-- The outcome of `addHeaders`: the header of the request
(`map[string][]string`), the map recorded for the history, and the error. -/
structure HeaderResult where
  header : List (Str × List Str)
  history : List (Str × Str)
  err : Option Str
  deriving DecidableEq, Repr

/-- The method `Client.addHeaders`; `req.Header.Set(key, value)` stores the
value under the canonical form of the key. -/
def addHeaders (params : List (Str × Value)) :
    List (Str × Str) → List (Str × List Str) → List (Str × Str) → HeaderResult
  | [], header, historyHeaders =>
    { header := header, history := historyHeaders, err := none }
  | (key, valueTmpl) :: rest, header, historyHeaders =>
    match Render params valueTmpl with
    | (_, some err) =>
      { header := header, history := historyHeaders,
        err := some ("rendering header template: ".toList ++ err) }
    | (value, none) =>
      addHeaders params rest (mapSet header (CanonicalMIMEHeaderKey key) [value])
        (mapSet historyHeaders key value)

/-! ## Notions used to state the properties -/

/-- Reading the sub-module mapping of a module: a nil map has no keys. -/
def subModules (m : Module) : List (Str × Module) :=
  m.Modules.getD []

/-- The modules a path reaches in a tree: `M0 = tree[p0]` and
`M(i+1) = Mi.Modules[p(i+1)]`; `none` when some segment is not a key. -/
def moduleChain (tree : List (Str × Module)) : List Str → Option (List Module)
  | [] => some []
  | p :: rest =>
    match mapGet tree p with
    | none => none
    | some m => (moduleChain (subModules m) rest).map (fun ms => m :: ms)

/-- The value for `k` in the last fragment of the sequence that has `k`. -/
def lastFragmentValue (fragments : List RequestConfig) (k : Str) : Option Str :=
  fragments.reverse.findSome? (fun f => mapGet f.Headers k)

/-- The modules a path reaches together with the entry for the API name in
the API mapping of the last one; `none` when the path is empty, a segment is
not a key, or the API name is not a key. -/
def targetAPI (tree : List (Str × Module)) (path : List Str) (apiName : Str) :
    Option (List Module × APISpec) :=
  match moduleChain tree path with
  | none => none
  | some ms =>
    match ms.getLast? with
    | none => none
    | some last => (mapGet last.APIs apiName).map (fun spec => (ms, spec))

/-- The module a path reaches: the last one of its chain. -/
def moduleAt (tree : List (Str × Module)) (path : List Str) : Option Module :=
  (moduleChain tree path).bind List.getLast?

/-- The message of the submodule-not-found error. -/
def submoduleNotFound (child parent : Str) : Str :=
  "submodule '".toList ++ child ++ "' not found in module '".toList ++ parent ++ "'".toList

/-- The message of the module-not-found error. -/
def moduleNotFound (name : Str) : Str :=
  "module '".toList ++ name ++ "' not found".toList

/-- The string form of a parameter value. -/
def valueText (v : Value) : Str :=
  (convertToString v).1

/-- The text contains a marker: `$\x7b`, one or more characters other than the
closing brace, and a closing brace. -/
def HasMarker (s : Str) : Prop :=
  ∃ pre name post, s = pre ++ marker name ++ post ∧ name ≠ [] ∧ '}' ∉ name

/-- A chunk of a template: literal text or a placeholder. -/
inductive Seg where
  | lit (text : Str)
  | var (name : Str)
  deriving DecidableEq, Repr

/-- The text of a chunk. -/
def Seg.text : Seg → Str
  | .lit s => s
  | .var n => marker n

/-- The template that a sequence of chunks spells. -/
def chunksText (segs : List Seg) : Str :=
  segs.flatMap Seg.text

/-- Literal text without `$`, or a placeholder whose name is non-empty and
has neither `$` nor a closing brace. -/
def Seg.Plain : Seg → Prop
  | .lit s => '$' ∉ s
  | .var n => n ≠ [] ∧ '$' ∉ n ∧ '}' ∉ n

instance (seg : Seg) : Decidable seg.Plain := by
  cases seg <;> unfold Seg.Plain <;> infer_instance

/-- The placeholder names of a sequence of chunks, in order. -/
def varNames : List Seg → List Str
  | [] => []
  | .lit _ :: rest => varNames rest
  | .var n :: rest => n :: varNames rest

/-- A placeholder chunk replaced by the string form of its parameter. -/
def substSeg (params : List (Str × Value)) : Seg → Seg
  | .lit s => .lit s
  | .var n =>
    match mapGet params n with
    | some v => .lit (valueText v)
    | none => .var n

/-- The placeholder chunks named `n` replaced by literal text. -/
def replaceSeg (n new : Str) : Seg → Seg
  | .lit s => .lit s
  | .var m => if m = n then .lit new else .var m

/-- The placeholder chunks whose name is in `names` replaced by the string
form of their parameter. -/
def substNamed (params : List (Str × Value)) (names : List Str) : Seg → Seg
  | .lit s => .lit s
  | .var m => if m ∈ names then substSeg params (.var m) else .var m

/-- The identifiers a template references: the names of the placeholders the
scan of `Render` finds in it, left to right. -/
def placeholderNames (tmpl : Str) : List Str :=
  (FindAllStringSubmatch tmpl).map Prod.snd

/-- The message of the parameter-not-found error. -/
def parameterNotFound (name : Str) : Str :=
  "parameter '".toList ++ name ++ "' not found".toList

/-- The number a run of decimal digits denotes. -/
def digitsValue (ds : Str) : Nat :=
  ds.foldl (fun n c => n * 10 + digitVal c) 0

/-- The digits of a raw integer text: the text after its optional sign. -/
def signedDigits : Str → Str
  | [] => []
  | c :: t => if c = '+' ∨ c = '-' then t else c :: t

/-- The raw text is a base-10 integer: an optional sign (`+` or `-`) followed
by one or more decimal digits and nothing else. -/
def IsDecimalInteger (raw : Str) : Prop :=
  signedDigits raw ≠ [] ∧ ∀ c ∈ signedDigits raw, isDigit c = true

instance (raw : Str) : Decidable (IsDecimalInteger raw) := by
  unfold IsDecimalInteger; infer_instance

/-- The integer a raw base-10 integer text denotes. -/
def rawInt (raw : Str) : Int :=
  if raw.head? = some '-' then -(digitsValue (signedDigits raw) : Int)
  else (digitsValue (signedDigits raw) : Int)

/-- The text is the canonical decimal form of the integer: a `-` sign exactly
when the integer is negative, then the decimal digits of its magnitude, with
no leading zero (the single digit `0` for zero). -/
def IsCanonicalDecimal (s : Str) (i : Int) : Prop :=
  ∃ ds : Str, s = (if i < 0 then ['-'] else []) ++ ds ∧ ds ≠ [] ∧
    (∀ c ∈ ds, isDigit c = true) ∧ (ds = ['0'] ∨ ds.head? ≠ some '0') ∧
    digitsValue ds = i.natAbs

/-- The part of `ParseInt` after `ParseUint`: the error of a text that is not
a number, the range tests, and the sign. -/
def signedResult (neg : Bool) (r : Nat × Option Str) : Int × Option Str :=
  if r.2 ≠ none ∧ r.2 ≠ some "value out of range".toList then (0, r.2)
  else if !neg ∧ r.1 ≥ 2 ^ (IntSize - 1) then
    ((2 : Int) ^ (IntSize - 1) - 1, some "value out of range".toList)
  else if neg ∧ r.1 > 2 ^ (IntSize - 1) then
    (-(2 : Int) ^ (IntSize - 1), some "value out of range".toList)
  else (if neg then -(r.1 : Int) else (r.1 : Int), none)

/-- Every timestamp of the entries has a JSON form: its year is within 0 and
9999. -/
def Serialisable (entries : List Entry) : Prop :=
  ∀ x ∈ entries, 0 ≤ x.Timestamp.year ∧ x.Timestamp.year ≤ 9999

instance (entries : List Entry) : Decidable (Serialisable entries) := by
  unfold Serialisable; infer_instance

/-- The message of the error of `SaveHistory` for a history that cannot be
serialised. -/
def serializingError : Str :=
  "serializing history: json: error calling MarshalJSON for type time.Time: ".toList ++
    "Time.MarshalJSON: year outside of range [0,9999]".toList

/-- The template contains the text of a placeholder with this name: `$\x7b`,
the name (a non-empty run of characters other than the closing brace) and a
closing brace. -/
def ContainsPlaceholder (tmpl name : Str) : Prop :=
  name ≠ [] ∧ '}' ∉ name ∧ marker name <:+: tmpl

instance (tmpl name : Str) : Decidable (ContainsPlaceholder tmpl name) := by
  unfold ContainsPlaceholder; infer_instance

/-! ## Example configurations -/

/-- An API `f` whose request carries the header `X: 3`. -/
def exApiF : APISpec :=
  { Params := [{ Name := "id".toList, Typ := "string".toList, Required := true,
                 Description := [] }],
    Request := { Method := "GET".toList, URL := "/f".toList, Body := [], BodyFile := [],
                 Form := [], Params := [], Headers := [("X".toList, "3".toList)] } }

/-- Module `b`: header `X: 2`, one parameter, API `f`, no sub-modules. -/
def exModuleB : Module :=
  .mk "inner".toList
    [{ Name := "pb".toList, Typ := "string".toList, Required := false, Description := [] }]
    (some { Headers := [("X".toList, "2".toList)] }) none [("f".toList, exApiF)]

/-- Module `a`: header `X: 1`, one parameter, sub-module `b`. -/
def exModuleA : Module :=
  .mk "outer".toList
    [{ Name := "pa".toList, Typ := "string".toList, Required := false, Description := [] }]
    (some { Headers := [("X".toList, "1".toList)] }) (some [("b".toList, exModuleB)]) []

/-- The tree `a` → `b` with API `f`. -/
def exTree : List (Str × Module) :=
  [("a".toList, exModuleA)]

/-- A tree whose module `a` has a sub-module mapping that is present and empty
(`modules: \x7b\x7d` in the configuration file). -/
def exTreeEmptySub : List (Str × Module) :=
  [("a".toList, .mk [] [] none (some []) [])]

/-- Module fragment with the header `X: 1`. -/
def exFragX1 : RequestConfig := { Headers := [("X".toList, "1".toList)] }

/-- Module fragment with the header `X: 2`. -/
def exFragX2 : RequestConfig := { Headers := [("X".toList, "2".toList)] }

/-- The request of API `f` without any header of its own. -/
def exRequestNoHeader : RequestSpec := { exApiF.Request with Headers := [] }

/-! ## Example templates and parameters -/

/-- The parameter set `a = "x"`. -/
def exParamsA : List (Str × Value) :=
  [("a".toList, .str "x".toList)]

/-- The template `$\x7ba\x7d and $\x7bb\x7d`. -/
def exTemplateAB : Str :=
  "$\x7ba\x7d and $\x7bb\x7d".toList

/-- The parameter set in which the value of `a` is the marker of `b`. -/
def exParamsNested : List (Str × Value) :=
  [("a".toList, .str "$\x7bb\x7d".toList), ("b".toList, .str "x".toList)]

/-- The chunks of the template `$\x7ba\x7d$\x7bb\x7d`. -/
def exChunksAB : List Seg :=
  [.var "a".toList, .var "b".toList]

/-- The chunks of the template `Hello $\x7bwho\x7d!`. -/
def exChunksHello : List Seg :=
  [.lit "Hello ".toList, .var "who".toList, .lit "!".toList]

/-- The parameter set `who = "Ada"`, `n = 7`. -/
def exParamsWho : List (Str × Value) :=
  [("who".toList, .str "Ada".toList), ("n".toList, .int 7)]

/-- The parameter set `name = "Ada"`. -/
def exParamsName : List (Str × Value) :=
  [("name".toList, .str "Ada".toList)]

/-- The parameter set `token = "abc"`, `id = "42"`. -/
def exParamsUsers : List (Str × Value) :=
  [("token".toList, .str "abc".toList), ("id".toList, .str "42".toList)]

/-- The API `get` of module `users`: `GET /users/$\x7bid\x7d`, no headers. -/
def exApiGet : APISpec :=
  { Params := [{ Name := "id".toList, Typ := "string".toList, Required := true,
                 Description := [] }],
    Request := { Method := "GET".toList, URL := "/users/$\x7bid\x7d".toList, Body := [],
                 BodyFile := [], Form := [], Params := [], Headers := [] } }

/-- The module `users` with the header `Authorization: Bearer $\x7btoken\x7d`. -/
def exModuleUsers : Module :=
  .mk "users".toList
    [{ Name := "token".toList, Typ := "string".toList, Required := true, Description := [] }]
    (some { Headers := [("Authorization".toList, "Bearer $\x7btoken\x7d".toList)] })
    none [("get".toList, exApiGet)]

/-- The single-level tree with the module `users`. -/
def exTreeUsers : List (Str × Module) :=
  [("users".toList, exModuleUsers)]

/-- The template `$\x7ba$\x7bb\x7d`, in which the text of the placeholder `b`
lies inside the placeholder `a$\x7bb`. -/
def exTemplateNested : Str :=
  "$\x7ba$\x7bb\x7d".toList

/-- The parameter set with the single key `a$\x7bb`, of value `V`. -/
def exParamsNestedName : List (Str × Value) :=
  [("a$\x7bb".toList, .str "V".toList)]

/-! ## Example history and query parameters -/

/-- A history entry numbered `n`, of the year 2024. -/
def exEntry (n : Nat) : Entry :=
  { ID := Nat.toDigits 10 n, Timestamp := { year := 2024, nanos := n },
    Module := "users".toList, API := "get".toList, Parameters := [],
    Request := { Method := "GET".toList, URL := "/users/42".toList, Headers := [], Body := [],
                 Form := [], QueryParams := [] },
    Response := { StatusCode := 200, Headers := [], Body := [] } }

/-- A history entry whose timestamp is in the year 10000. -/
def exEntryYear10000 : Entry :=
  { exEntry 0 with Timestamp := { year := 10000, nanos := 0 } }

/-- A stored history of 100 entries, newest first: the entries 99, 98, ..., 0. -/
def exHistory100 : History :=
  { Entries := ((List.range 100).map exEntry).reverse }

/-- A query parameter whose value template references the identifier
`missing`. -/
def exQueryMissing : QueryParam :=
  { Name := "q".toList, Value := "$\x7bmissing\x7d".toList }

/-- The query parameters `b=$\x7bx\x7d`, `q=$\x7bmissing\x7d`, `a=1 2`. -/
def exQueryParams : List QueryParam :=
  [{ Name := "b".toList, Value := "$\x7bx\x7d".toList }, exQueryMissing,
   { Name := "a".toList, Value := "1 2".toList }]

/-! ## Maps: reading after writing -/

theorem mapGet_mapSet {V : Type} (m : List (Str × V)) (k k' : Str) (v : V) :
    mapGet (mapSet m k v) k' = if k = k' then some v else mapGet m k' := by
  induction m with
  | nil => simp [mapSet, mapGet]
  | cons e rest ih =>
    obtain ⟨k0, v0⟩ := e
    by_cases h0 : k0 = k
    · subst h0
      by_cases h1 : k0 = k' <;> simp [mapSet, mapGet, h1]
    · by_cases h1 : k0 = k'
      · subst h1
        have h2 : ¬ k = k0 := fun e => h0 e.symm
        simp [mapSet, mapGet, h0, h2]
      · simp [mapSet, mapGet, h0, h1, ih]

theorem mapGet_eq_none_of_not_mem {V : Type} (m : List (Str × V)) (k : Str)
    (h : k ∉ m.map Prod.fst) : mapGet m k = none := by
  induction m with
  | nil => rfl
  | cons e rest ih =>
    obtain ⟨k0, v0⟩ := e
    rw [List.map_cons, List.mem_cons, not_or] at h
    have h0 : ¬ k0 = k := fun e => h.1 e.symm
    simp only [mapGet, h0, if_false]
    exact ih h.2

theorem mapGet_applyHeaders (headers merged : List (Str × Str)) (k : Str)
    (hn : KeysNodup headers) :
    mapGet (applyHeaders merged headers) k =
      match mapGet headers k with
      | some v => some v
      | none => mapGet merged k := by
  induction headers generalizing merged with
  | nil => simp [applyHeaders, mapGet]
  | cons e rest ih =>
    obtain ⟨k0, v0⟩ := e
    have hn' : KeysNodup rest := by
      unfold KeysNodup at hn ⊢
      simp at hn
      exact hn.2
    have hk0 : k0 ∉ rest.map Prod.fst := by
      unfold KeysNodup at hn
      simp at hn
      simpa using hn.1
    have step : applyHeaders merged ((k0, v0) :: rest) = applyHeaders (mapSet merged k0 v0) rest := by
      simp [applyHeaders]
    rw [step, ih _ hn']
    by_cases h0 : k0 = k
    · subst h0
      rw [mapGet_eq_none_of_not_mem rest k0 hk0]
      simp [mapGet, mapGet_mapSet]
    · simp [mapGet, h0, mapGet_mapSet]

theorem mapGet_foldl_applyHeaders (fragments : List RequestConfig) (init : List (Str × Str))
    (k : Str) (hn : ∀ f ∈ fragments, KeysNodup f.Headers) :
    mapGet (fragments.foldl (fun acc req => applyHeaders acc req.Headers) init) k =
      match lastFragmentValue fragments k with
      | some v => some v
      | none => mapGet init k := by
  induction fragments generalizing init with
  | nil => simp [lastFragmentValue]
  | cons f rest ih =>
    have hrest : ∀ g ∈ rest, KeysNodup g.Headers := fun g hg => hn g (List.mem_cons_of_mem _ hg)
    have hf : KeysNodup f.Headers := hn f (List.mem_cons_self _ _)
    rw [List.foldl_cons, ih _ hrest, mapGet_applyHeaders _ _ _ hf]
    simp only [lastFragmentValue, List.reverse_cons, List.findSome?_append, List.findSome?_cons,
      List.findSome?_nil]
    cases h1 : List.findSome? (fun f => mapGet f.Headers k) rest.reverse <;>
      cases h2 : mapGet f.Headers k <;> simp

/-! ## Module resolution: what `CollectModuleInfo` computes -/

/-- Unfolding of `CollectModuleInfo` at a path of one segment. -/
theorem collect_single (tree : List (Str × Module)) (p api : Str) :
    CollectModuleInfo tree [p] api =
      match mapGet tree p with
      | none => CollectResult.fail ("module '".toList ++ p ++ "' not found".toList)
      | some m =>
        match mapGet m.APIs api with
        | some apiSpec =>
          { params := m.Params, reqs := m.Request.toList, apiSpec := some apiSpec, err := none }
        | none =>
          CollectResult.fail ("API '".toList ++ api ++
            "' not found in module '".toList ++ p ++ "'".toList) := by
  rw [CollectModuleInfo]
  cases mapGet tree p with
  | none => rfl
  | some m =>
    simp only
    cases mapGet m.APIs api <;> cases m.Request <;> rfl

/-- Unfolding of `CollectModuleInfo` at a path of two segments or more. -/
theorem collect_cons (tree : List (Str × Module)) (p q : Str) (rest : List Str) (api : Str) :
    CollectModuleInfo tree (p :: q :: rest) api =
      match mapGet tree p with
      | none => CollectResult.fail ("module '".toList ++ p ++ "' not found".toList)
      | some m =>
        match m.Modules with
        | none =>
          CollectResult.fail ("submodule '".toList ++ q ++
            "' not found in module '".toList ++ p ++ "'".toList)
        | some sub =>
          match (CollectModuleInfo sub (q :: rest) api).err with
          | some e => CollectResult.fail e
          | none =>
            { params := m.Params ++ (CollectModuleInfo sub (q :: rest) api).params,
              reqs := m.Request.toList ++ (CollectModuleInfo sub (q :: rest) api).reqs,
              apiSpec := (CollectModuleInfo sub (q :: rest) api).apiSpec, err := none } := by
  rw [CollectModuleInfo]
  cases mapGet tree p with
  | none => rfl
  | some m =>
    simp only
    cases m.Modules with
    | none => rfl
    | some sub =>
      simp only
      cases (CollectModuleInfo sub (q :: rest) api).err <;> cases m.Request <;> rfl

theorem moduleChain_cons (tree : List (Str × Module)) (p : Str) (rest : List Str) :
    moduleChain tree (p :: rest) =
      match mapGet tree p with
      | none => none
      | some m => (moduleChain (subModules m) rest).map (fun ms => m :: ms) := by
  rw [moduleChain]

theorem moduleChain_cons_ne_nil (tree : List (Str × Module)) (p : Str) (rest : List Str) :
    moduleChain tree (p :: rest) ≠ some [] := by
  rw [moduleChain_cons]
  cases mapGet tree p with
  | none => simp
  | some m => cases moduleChain (subModules m) rest <;> simp

theorem targetAPI_single (tree : List (Str × Module)) (p api : Str) :
    targetAPI tree [p] api =
      match mapGet tree p with
      | none => none
      | some m => (mapGet m.APIs api).map (fun spec => ([m], spec)) := by
  unfold targetAPI
  rw [moduleChain_cons]
  cases mapGet tree p with
  | none => rfl
  | some m => simp [moduleChain]

theorem targetAPI_cons (tree : List (Str × Module)) (p q : Str) (rest : List Str) (api : Str) :
    targetAPI tree (p :: q :: rest) api =
      match mapGet tree p with
      | none => none
      | some m =>
        (targetAPI (subModules m) (q :: rest) api).map (fun r => (m :: r.1, r.2)) := by
  unfold targetAPI
  rw [moduleChain_cons tree p]
  cases mapGet tree p with
  | none => rfl
  | some m =>
    simp only
    cases hc : moduleChain (subModules m) (q :: rest) with
    | none => rfl
    | some ms =>
      cases ms with
      | nil => exact absurd hc (moduleChain_cons_ne_nil _ _ _)
      | cons m' ms' =>
        simp only [Option.map_some', List.getLast?_cons_cons]
        cases (m' :: ms').getLast? with
        | none => rfl
        | some last =>
          simp only [Option.map_map]
          rfl

theorem targetAPI_nil_tree (path : List Str) (api : Str) : targetAPI [] path api = none := by
  cases path with
  | nil => rfl
  | cons p rest => simp [targetAPI, moduleChain, mapGet]

/-- What `CollectModuleInfo` returns, in terms of the chain of modules the path
reaches. -/
theorem collect_eq (api : Str) (path : List Str) :
    ∀ tree : List (Str × Module),
      match targetAPI tree path api with
      | some r =>
        CollectModuleInfo tree path api =
          { params := r.1.flatMap Module.Params, reqs := r.1.filterMap Module.Request,
            apiSpec := some r.2, err := none }
      | none => ∃ msg, CollectModuleInfo tree path api = CollectResult.fail msg := by
  induction path with
  | nil => intro tree; exact ⟨_, rfl⟩
  | cons p rest ih =>
    intro tree
    cases rest with
    | nil =>
      rw [targetAPI_single, collect_single]
      cases mapGet tree p with
      | none => exact ⟨_, rfl⟩
      | some m =>
        simp only
        cases mapGet m.APIs api with
        | none => exact ⟨_, rfl⟩
        | some spec => cases hr : m.Request <;> simp [hr]
    | cons q rest' =>
      rw [targetAPI_cons, collect_cons]
      cases mapGet tree p with
      | none => exact ⟨_, rfl⟩
      | some m =>
        simp only
        cases hm : m.Modules with
        | none =>
          simp only [subModules, hm, Option.getD_none, targetAPI_nil_tree]
          exact ⟨_, rfl⟩
        | some sub =>
          have h := ih sub
          simp only [subModules, hm, Option.getD_some]
          cases ht : targetAPI sub (q :: rest') api with
          | none =>
            rw [ht] at h
            obtain ⟨msg, hmsg⟩ := h
            rw [hmsg]
            exact ⟨msg, rfl⟩
          | some r =>
            rw [ht] at h
            simp only at h
            rw [h]
            cases hr : m.Request <;> simp [hr]

theorem moduleChain_length (path : List Str) :
    ∀ (tree : List (Str × Module)) (ms : List Module),
      moduleChain tree path = some ms → ms.length = path.length := by
  induction path with
  | nil => intro tree ms h; simp [moduleChain] at h; simp [← h]
  | cons p rest ih =>
    intro tree ms h
    rw [moduleChain_cons] at h
    cases hm : mapGet tree p with
    | none => simp [hm] at h
    | some m =>
      simp only [hm] at h
      cases hc : moduleChain (subModules m) rest with
      | none => simp [hc] at h
      | some ms' =>
        simp only [hc, Option.map_some', Option.some.injEq] at h
        subst h
        simp [ih _ _ hc]

theorem moduleChain_nil_tree (p : Str) (rest : List Str) : moduleChain [] (p :: rest) = none := by
  simp [moduleChain, mapGet]

theorem moduleAt_single (tree : List (Str × Module)) (p : Str) :
    moduleAt tree [p] = mapGet tree p := by
  unfold moduleAt
  rw [moduleChain_cons]
  cases mapGet tree p <;> simp [moduleChain]

theorem moduleAt_cons (tree : List (Str × Module)) (p q : Str) (rest : List Str) :
    moduleAt tree (p :: q :: rest) =
      match mapGet tree p with
      | none => none
      | some m => moduleAt (subModules m) (q :: rest) := by
  unfold moduleAt
  rw [moduleChain_cons tree p]
  cases mapGet tree p with
  | none => rfl
  | some m =>
    simp only
    cases hc : moduleChain (subModules m) (q :: rest) with
    | none => rfl
    | some ms =>
      cases ms with
      | nil => exact absurd hc (moduleChain_cons_ne_nil _ _ _)
      | cons m' ms' => simp

/-- A path that runs past a module without a sub-module mapping, at any depth. -/
theorem collect_past_leaf (api q : Str) (rest : List Str) (p : Str) (m : Module) (pre : List Str) :
    ∀ tree : List (Str × Module), moduleAt tree (pre ++ [p]) = some m →
      (m.Modules = none →
        CollectModuleInfo tree (pre ++ p :: q :: rest) api =
          CollectResult.fail (submoduleNotFound q p)) ∧
      (m.Modules = some [] →
        CollectModuleInfo tree (pre ++ p :: q :: rest) api =
          CollectResult.fail (moduleNotFound q)) := by
  induction pre with
  | nil =>
    intro tree hm
    rw [List.nil_append, moduleAt_single] at hm
    rw [List.nil_append, collect_cons, hm]
    constructor
    · intro hnil
      simp only [hnil]
      rfl
    · intro hemp
      simp only [hemp]
      have : CollectModuleInfo [] (q :: rest) api = CollectResult.fail (moduleNotFound q) := by
        cases rest <;> rfl
      rw [this]
      rfl
  | cons p0 pre' ih =>
    intro tree hm
    obtain ⟨a, t, hat⟩ : ∃ a t, pre' ++ [p] = a :: t := by
      cases pre' with
      | nil => exact ⟨p, [], rfl⟩
      | cons x xs => exact ⟨x, xs ++ [p], rfl⟩
    obtain ⟨b, u, hbu⟩ : ∃ b u, pre' ++ p :: q :: rest = b :: u := by
      cases pre' with
      | nil => exact ⟨p, q :: rest, rfl⟩
      | cons x xs => exact ⟨x, xs ++ p :: q :: rest, rfl⟩
    rw [List.cons_append, hat, moduleAt_cons] at hm
    rw [List.cons_append, hbu, collect_cons]
    cases h0 : mapGet tree p0 with
    | none => simp [h0] at hm
    | some m0 =>
      simp only [h0] at hm
      cases hsub : m0.Modules with
      | none =>
        simp [subModules, hsub, moduleAt, moduleChain_nil_tree] at hm
      | some sub =>
        have hm' : moduleAt sub (pre' ++ [p]) = some m := by
          rw [hat]
          simpa [subModules, hsub] using hm
        have h := ih sub hm'
        rw [hbu] at h
        simp only [hsub]
        constructor
        · intro hnil
          rw [h.1 hnil]
          rfl
        · intro hemp
          rw [h.2 hemp]
          rfl

/-! ## Module resolution: the stated properties -/

/-- C1: whenever `CollectModuleInfo` succeeds on a path `p0..pk`, the path
reaches a chain of modules `M0..Mk` (`M0 = tree[p0]`, `M(i+1) = Mi.Modules[p(i+1)]`,
one module per segment), the returned parameters are
`M0.Params ++ ... ++ Mk.Params` and the returned fragments are the `Request`
fragments of those modules that declare one, ancestor before descendant. -/
theorem collect_chain_order (tree : List (Str × Module)) (path : List Str) (apiName : Str)
    (hok : (CollectModuleInfo tree path apiName).err = none) :
    ∃ ms : List Module, moduleChain tree path = some ms ∧ ms.length = path.length ∧
      (CollectModuleInfo tree path apiName).params = ms.flatMap Module.Params ∧
      (CollectModuleInfo tree path apiName).reqs = ms.filterMap Module.Request := by
  have h := collect_eq apiName path tree
  cases ht : targetAPI tree path apiName with
  | none =>
    rw [ht] at h
    obtain ⟨msg, hmsg⟩ := h
    rw [hmsg] at hok
    simp [CollectResult.fail] at hok
  | some r =>
    rw [ht] at h
    simp only at h
    have hc : moduleChain tree path = some r.1 := by
      unfold targetAPI at ht
      cases hc : moduleChain tree path with
      | none => simp [hc] at ht
      | some ms =>
        simp only [hc] at ht
        cases hl : ms.getLast? with
        | none => simp [hl] at ht
        | some last =>
          simp only [hl] at ht
          cases ha : mapGet last.APIs apiName with
          | none => simp [ha] at ht
          | some spec =>
            simp only [ha, Option.map_some', Option.some.injEq] at ht
            rw [← ht]
    exact ⟨r.1, hc, moduleChain_length _ _ _ hc, by rw [h], by rw [h]⟩

/-- Witness for C1: the path `a.b` of the example tree with API `f`. -/
theorem collect_chain_order_witness :
    (CollectModuleInfo exTree ["a".toList, "b".toList] "f".toList).err = none ∧
    ∃ ms : List Module, moduleChain exTree ["a".toList, "b".toList] = some ms ∧
      ms.length = ["a".toList, "b".toList].length ∧
      (CollectModuleInfo exTree ["a".toList, "b".toList] "f".toList).params =
        ms.flatMap Module.Params ∧
      (CollectModuleInfo exTree ["a".toList, "b".toList] "f".toList).reqs =
        ms.filterMap Module.Request :=
  ⟨by decide, collect_chain_order exTree ["a".toList, "b".toList] "f".toList (by decide)⟩

/-- The chain and the API entry behind a successful `targetAPI`. -/
theorem targetAPI_eq_some (tree : List (Str × Module)) (path : List Str) (api : Str)
    (r : List Module × APISpec) :
    targetAPI tree path api = some r ↔
      ∃ last, moduleChain tree path = some r.1 ∧ r.1.getLast? = some last ∧
        mapGet last.APIs api = some r.2 := by
  unfold targetAPI
  cases hc : moduleChain tree path with
  | none => simp
  | some ms =>
    simp only
    cases hl : ms.getLast? with
    | none =>
      constructor
      · intro h
        cases h
      · rintro ⟨last, hms, hlast, _⟩
        simp only [Option.some.injEq] at hms
        rw [← hms, hl] at hlast
        cases hlast
    | some last =>
      simp only
      constructor
      · intro h
        cases ha : mapGet last.APIs api with
        | none => simp [ha] at h
        | some spec =>
          simp only [ha, Option.map_some', Option.some.injEq] at h
          subst h
          exact ⟨last, rfl, hl, ha⟩
      · rintro ⟨last', hms, hlast, ha⟩
        obtain ⟨ms', spec⟩ := r
        simp only [Option.some.injEq] at hms
        simp only at hlast ha
        subst hms
        rw [hl] at hlast
        cases hlast
        simp [ha]

/-- C3: `CollectModuleInfo` succeeds exactly when the path is non-empty, every
segment resolves in turn and the API name is a key of the API mapping of the
last module reached; on success the returned API spec is that module's entry
for the name; on every failure the parameters, the fragments and the API spec
are all empty. -/
theorem collect_succeeds_iff (tree : List (Str × Module)) (path : List Str) (apiName : Str) :
    ((CollectModuleInfo tree path apiName).err = none ↔
      path ≠ [] ∧ ∃ ms last spec, moduleChain tree path = some ms ∧
        ms.getLast? = some last ∧ mapGet last.APIs apiName = some spec) ∧
    (∀ ms last, moduleChain tree path = some ms → ms.getLast? = some last →
      (CollectModuleInfo tree path apiName).err = none →
        (CollectModuleInfo tree path apiName).apiSpec = mapGet last.APIs apiName ∧
        (CollectModuleInfo tree path apiName).apiSpec ≠ none) ∧
    ((CollectModuleInfo tree path apiName).err ≠ none →
      (CollectModuleInfo tree path apiName).params = [] ∧
      (CollectModuleInfo tree path apiName).reqs = [] ∧
      (CollectModuleInfo tree path apiName).apiSpec = none) := by
  have h := collect_eq apiName path tree
  cases ht : targetAPI tree path apiName with
  | none =>
    rw [ht] at h
    obtain ⟨msg, hmsg⟩ := h
    have hnone : ∀ ms last spec, moduleChain tree path = some ms →
        ms.getLast? = some last → mapGet last.APIs apiName = some spec → False := by
      intro ms last spec h1 h2 h3
      have := (targetAPI_eq_some tree path apiName (ms, spec)).2 ⟨last, h1, h2, h3⟩
      rw [ht] at this
      cases this
    refine ⟨⟨?_, ?_⟩, ?_, ?_⟩
    · intro hok
      rw [hmsg] at hok
      simp [CollectResult.fail] at hok
    · rintro ⟨_, ms, last, spec, h1, h2, h3⟩
      exact (hnone ms last spec h1 h2 h3).elim
    · intro ms last _ _ hok
      rw [hmsg] at hok
      simp [CollectResult.fail] at hok
    · intro _
      rw [hmsg]
      exact ⟨rfl, rfl, rfl⟩
  | some r =>
    rw [ht] at h
    simp only at h
    obtain ⟨last, h1, h2, h3⟩ := (targetAPI_eq_some tree path apiName r).1 ht
    have hne : path ≠ [] := by
      intro hp
      subst hp
      simp only [moduleChain, Option.some.injEq] at h1
      rw [← h1] at h2
      simp at h2
    refine ⟨⟨?_, ?_⟩, ?_, ?_⟩
    · intro _
      exact ⟨hne, r.1, last, r.2, h1, h2, h3⟩
    · intro _
      rw [h]
    · intro ms last' hms hlast _
      rw [h1] at hms
      cases hms
      rw [h2] at hlast
      cases hlast
      rw [h, h3]
      simp
    · intro herr
      rw [h] at herr
      simp at herr

/-- C4, the claim at the present-but-empty mapping: module `a` of
`exTreeEmptySub` has no non-empty sub-module mapping, yet the path `a.b` fails
with the module-not-found error for `b`, which is not the submodule-not-found
error naming `b` in `a`. -/
theorem collect_empty_mapping_counterexample :
    (mapGet exTreeEmptySub "a".toList).map Module.Modules = some (some []) ∧
    (CollectModuleInfo exTreeEmptySub ["a".toList, "b".toList] "f".toList).err =
      some "module 'b' not found".toList ∧
    (CollectModuleInfo exTreeEmptySub ["a".toList, "b".toList] "f".toList).err ≠
      some (submoduleNotFound "b".toList "a".toList) :=
  ⟨by rfl, by decide, by decide⟩

/-- C4 as amended: when a path of the form `pre ++ [p, q] ++ rest` reaches at
`pre ++ [p]` a module whose sub-module mapping is absent (nil),
`CollectModuleInfo` fails with nothing but the error
`submodule 'q' not found in module 'p'`; when that mapping is present and
empty it fails with `module 'q' not found`. -/
theorem collect_submodule_error (tree : List (Str × Module)) (pre : List Str) (p q : Str)
    (rest : List Str) (apiName : Str) (m : Module)
    (hm : moduleAt tree (pre ++ [p]) = some m) :
    (m.Modules = none →
      CollectModuleInfo tree (pre ++ p :: q :: rest) apiName =
        CollectResult.fail (submoduleNotFound q p)) ∧
    (m.Modules = some [] →
      CollectModuleInfo tree (pre ++ p :: q :: rest) apiName =
        CollectResult.fail (moduleNotFound q)) :=
  collect_past_leaf apiName q rest p m pre tree hm

/-- Witness for C4: in the example tree `a.b` has no sub-modules, and the path
`a.b.c` fails naming `c` as missing in `b`. -/
theorem collect_submodule_error_witness :
    moduleAt exTree (["a".toList] ++ ["b".toList]) = some exModuleB ∧
    exModuleB.Modules = none ∧
    CollectModuleInfo exTree ["a".toList, "b".toList, "c".toList] "f".toList =
      { params := [], reqs := [], apiSpec := none,
        err := some "submodule 'c' not found in module 'b'".toList } :=
  ⟨by rfl, rfl,
   (collect_submodule_error exTree ["a".toList] "b".toList "c".toList [] "f".toList exModuleB
      (by rfl)).1 rfl⟩

/-! ## Request merging: the stated properties -/

theorem lastFragmentValue_isSome (fragments : List RequestConfig) (k : Str) :
    (lastFragmentValue fragments k).isSome ↔
      ∃ f ∈ fragments, (mapGet f.Headers k).isSome := by
  unfold lastFragmentValue
  rw [List.findSome?_isSome_iff]
  constructor
  · rintro ⟨f, hf, h⟩
    exact ⟨f, List.mem_reverse.1 hf, h⟩
  · rintro ⟨f, hf, h⟩
    exact ⟨f, List.mem_reverse.2 hf, h⟩

/-- C2: for maps with distinct keys, the headers of `MergeRequestConfigs`
map a key to the API spec's value when the API spec has the key, otherwise to
the value of the last fragment that has it, and they have the key exactly when
the API spec or some fragment has it. -/
theorem merge_headers_precedence (fragments : List RequestConfig) (apiReq : RequestSpec)
    (k : Str) (hf : ∀ f ∈ fragments, KeysNodup f.Headers) (ha : KeysNodup apiReq.Headers) :
    mapGet (MergeRequestConfigs fragments apiReq).Headers k =
      (match mapGet apiReq.Headers k with
       | some v => some v
       | none => lastFragmentValue fragments k) ∧
    ((mapGet (MergeRequestConfigs fragments apiReq).Headers k).isSome ↔
      (mapGet apiReq.Headers k).isSome ∨ ∃ f ∈ fragments, (mapGet f.Headers k).isSome) := by
  have key : mapGet (MergeRequestConfigs fragments apiReq).Headers k =
      (match mapGet apiReq.Headers k with
       | some v => some v
       | none => lastFragmentValue fragments k) := by
    simp only [MergeRequestConfigs]
    rw [mapGet_applyHeaders _ _ _ ha, mapGet_foldl_applyHeaders _ _ _ hf]
    cases mapGet apiReq.Headers k with
    | some v => rfl
    | none =>
      simp only
      cases lastFragmentValue fragments k <;> rfl
  refine ⟨key, ?_⟩
  rw [key, ← lastFragmentValue_isSome]
  cases mapGet apiReq.Headers k <;> simp

/-- Witness for C2: fragments `[X:1, X:2]` with the API header `X:3` give
`X:3`, and with no API header give `X:2`. -/
theorem merge_headers_precedence_witness :
    mapGet (MergeRequestConfigs [exFragX1, exFragX2] exApiF.Request).Headers "X".toList =
      some "3".toList ∧
    mapGet (MergeRequestConfigs [exFragX1, exFragX2] exRequestNoHeader).Headers "X".toList =
      some "2".toList :=
  ⟨(merge_headers_precedence [exFragX1, exFragX2] exApiF.Request "X".toList
      (by decide) (by decide)).1.trans (by decide),
   (merge_headers_precedence [exFragX1, exFragX2] exRequestNoHeader "X".toList
      (by decide) (by decide)).1.trans (by decide)⟩

/-! ## Scanning for placeholders -/

theorem takeWhile_name (name rest : Str) (h : '}' ∉ name) :
    (name ++ '}' :: rest).takeWhile isNameChar = name := by
  induction name with
  | nil => simp [isNameChar]
  | cons c cs ih =>
    have hc : c ≠ '}' := fun e => h (e ▸ List.mem_cons_self _ _)
    have hcs : '}' ∉ cs := fun e => h (List.mem_cons_of_mem _ e)
    rw [List.cons_append, List.takeWhile_cons_of_pos (by simpa [isNameChar] using hc), ih hcs]

theorem dropWhile_name (name rest : Str) (h : '}' ∉ name) :
    (name ++ '}' :: rest).dropWhile isNameChar = '}' :: rest := by
  induction name with
  | nil => simp [isNameChar]
  | cons c cs ih =>
    have hc : c ≠ '}' := fun e => h (e ▸ List.mem_cons_self _ _)
    have hcs : '}' ∉ cs := fun e => h (List.mem_cons_of_mem _ e)
    rw [List.cons_append, List.dropWhile_cons_of_pos (by simpa [isNameChar] using hc), ih hcs]

/-- A match at the head of `s` is exactly a decomposition of `s` into a marker
with a non-empty name free of closing braces, and the text after it. -/
theorem matchHere_eq_some (s name rest : Str) :
    matchHere s = some (name, rest) ↔
      s = marker name ++ rest ∧ name ≠ [] ∧ '}' ∉ name := by
  constructor
  · intro h
    cases s with
    | nil => simp [matchHere] at h
    | cons c0 s1 =>
      cases s1 with
      | nil => simp [matchHere] at h
      | cons c1 t =>
        simp only [matchHere] at h
        by_cases hc : c0 = '$' ∧ c1 = '{'
        · obtain ⟨h0, h1⟩ := hc
          subst h0 h1
          simp only [and_self, if_true] at h
          have ht : t = t.takeWhile isNameChar ++
              t.dropWhile isNameChar :=
            (List.takeWhile_append_dropWhile _ t).symm
          cases htw : t.takeWhile isNameChar with
          | nil => simp [htw] at h
          | cons n ns =>
            cases hdw : t.dropWhile isNameChar with
            | nil => simp [htw, hdw] at h
            | cons x rest' =>
              simp only [htw, hdw, Option.some.injEq, Prod.mk.injEq] at h
              obtain ⟨hname, hrest⟩ := h
              have hx : x = '}' := by
                have hne : t.dropWhile isNameChar ≠ [] := by rw [hdw]; simp
                have := List.head_dropWhile_not isNameChar t hne
                simp only [hdw, List.head_cons] at this
                simpa [isNameChar] using this
              rw [htw, hdw, hx, hname, hrest] at ht
              refine ⟨?_, ?_, ?_⟩
              · rw [ht]; simp [marker]
              · rw [← hname]; simp
              · intro hmem
                rw [← hname, ← htw] at hmem
                have := List.mem_takeWhile_imp hmem
                simp [isNameChar] at this
        · simp [hc] at h
  · rintro ⟨hs, hne, hnot⟩
    subst hs
    obtain ⟨n, ns, rfl⟩ := List.exists_cons_of_ne_nil hne
    simp only [marker, List.cons_append, List.append_assoc, List.singleton_append, matchHere,
      and_self, if_true]
    rw [← List.cons_append, takeWhile_name _ _ hnot, dropWhile_name _ _ hnot]
    rfl

theorem findAllAux_fuel (fuel1 : Nat) :
    ∀ (fuel2 : Nat) (s : Str), s.length ≤ fuel1 → s.length ≤ fuel2 →
      findAllAux fuel1 s = findAllAux fuel2 s := by
  induction fuel1 with
  | zero =>
    intro fuel2 s h1 _
    have hs : s = [] := List.length_eq_zero.1 (Nat.le_zero.1 h1)
    subst hs
    cases fuel2 <;> simp [findAllAux, matchHere]
  | succ n ih =>
    intro fuel2 s h1 h2
    cases fuel2 with
    | zero =>
      have hs : s = [] := List.length_eq_zero.1 (Nat.le_zero.1 h2)
      subst hs
      simp [findAllAux, matchHere]
    | succ k =>
      simp only [findAllAux]
      cases hm : matchHere s with
      | some r =>
        obtain ⟨name, rest⟩ := r
        have hs := ((matchHere_eq_some s name rest).1 hm).1
        have hlen : rest.length + 1 ≤ s.length := by
          rw [hs]; simp [marker]; omega
        simp only
        rw [ih k rest (by omega) (by omega)]
      | none =>
        cases s with
        | nil => rfl
        | cons c t =>
          simp only [List.length_cons] at h1 h2
          simp only
          rw [ih k t (by omega) (by omega)]

/-- One step of the scan, without the bound on the number of steps. -/
theorem findAll_unfold (s : Str) :
    FindAllStringSubmatch s =
      match matchHere s with
      | some (name, rest) => (marker name, name) :: FindAllStringSubmatch rest
      | none =>
        match s with
        | [] => []
        | _ :: t => FindAllStringSubmatch t := by
  unfold FindAllStringSubmatch
  cases s with
  | nil => simp [findAllAux, matchHere]
  | cons c t =>
    simp only [List.length_cons, findAllAux]
    cases hm : matchHere (c :: t) with
    | some r =>
      obtain ⟨name, rest⟩ := r
      have hs := ((matchHere_eq_some (c :: t) name rest).1 hm).1
      have hlen : rest.length + 1 ≤ (c :: t).length := by
        rw [hs]; simp [marker]; omega
      simp only [List.length_cons] at hlen
      simp only
      rw [findAllAux_fuel t.length rest.length rest (by omega) (le_refl _)]
    | none => rfl

/-! ## Replacement -/

theorem replaceAux_fuel (old new : Str) (hold : old ≠ []) (fuel1 : Nat) :
    ∀ (fuel2 : Nat) (s : Str), s.length ≤ fuel1 → s.length ≤ fuel2 →
      replaceAux old new fuel1 s = replaceAux old new fuel2 s := by
  induction fuel1 with
  | zero =>
    intro fuel2 s h1 _
    have hs : s = [] := List.length_eq_zero.1 (Nat.le_zero.1 h1)
    subst hs
    obtain ⟨o, os, rfl⟩ := List.exists_cons_of_ne_nil hold
    cases fuel2 <;> simp [replaceAux]
  | succ n ih =>
    intro fuel2 s h1 h2
    cases fuel2 with
    | zero =>
      have hs : s = [] := List.length_eq_zero.1 (Nat.le_zero.1 h2)
      subst hs
      obtain ⟨o, os, rfl⟩ := List.exists_cons_of_ne_nil hold
      simp [replaceAux]
    | succ k =>
      simp only [replaceAux]
      have hpos : 0 < old.length := List.length_pos.2 hold
      by_cases hp : old.isPrefixOf s = true
      · have hle : old.length ≤ s.length := (List.isPrefixOf_iff_prefix.1 hp).length_le
        have hd : (s.drop old.length).length + 1 ≤ s.length := by
          rw [List.length_drop]; omega
        simp only [hp, if_true]
        rw [ih k _ (by omega) (by omega)]
      · simp only [hp, Bool.false_eq_true, if_false]
        cases s with
        | nil => rfl
        | cons c t =>
          simp only [List.length_cons] at h1 h2
          simp only
          rw [ih k t (by omega) (by omega)]

/-- One step of the replacement of a non-empty `old`, without the bound on the
number of steps. -/
theorem replace_unfold (s old new : Str) (hold : old ≠ []) :
    Replace s old new =
      if old.isPrefixOf s then new ++ Replace (s.drop old.length) old new
      else
        match s with
        | [] => []
        | c :: t => c :: Replace t old new := by
  unfold Replace
  simp only [hold, if_false]
  have hpos : 0 < old.length := List.length_pos.2 hold
  cases s with
  | nil =>
    obtain ⟨o, os, rfl⟩ := List.exists_cons_of_ne_nil hold
    simp [replaceAux]
  | cons c t =>
    simp only [List.length_cons, replaceAux]
    by_cases hp : old.isPrefixOf (c :: t) = true
    · have hle : old.length ≤ (c :: t).length := (List.isPrefixOf_iff_prefix.1 hp).length_le
      have hd : ((c :: t).drop old.length).length + 1 ≤ (c :: t).length := by
        rw [List.length_drop]; omega
      simp only [List.length_cons] at hd
      simp only [hp, if_true]
      rw [replaceAux_fuel old new hold t.length _ _ (by omega) (le_refl _)]
    · simp only [hp, Bool.false_eq_true, if_false]

/-! ## Substring test -/

theorem contains_iff (s sub : Str) : Contains s sub = true ↔ sub <:+: s := by
  induction s with
  | nil =>
    simp only [Contains, List.isEmpty_iff, List.infix_nil]
  | cons c t ih =>
    simp only [Contains, Bool.or_eq_true, List.isPrefixOf_iff_prefix, ih, List.infix_cons_iff]

/-- A match at the head of `s` needs the two characters `$\x7b` in `s`. -/
theorem contains_of_matchHere (s : Str) (r : Str × Str) (h : matchHere s = some r) :
    Contains s ['$', '{'] = true := by
  obtain ⟨name, rest⟩ := r
  have hs := ((matchHere_eq_some s name rest).1 h).1
  rw [contains_iff, hs]
  exact ⟨[], name ++ ['}'] ++ rest, by simp [marker]⟩

theorem findAll_eq_nil_of_not_contains (s : Str) (h : Contains s ['$', '{'] = false) :
    FindAllStringSubmatch s = [] := by
  induction s with
  | nil => rw [findAll_unfold]; simp [matchHere]
  | cons c t ih =>
    rw [findAll_unfold]
    cases hm : matchHere (c :: t) with
    | some r =>
      have := contains_of_matchHere _ _ hm
      rw [h] at this
      cases this
    | none =>
      simp only
      apply ih
      simp only [Contains, Bool.or_eq_false_iff] at h
      exact h.2

/-- The early return of `Render` agrees with the loop: a template without
`$\x7b` has no match. -/
theorem render_eq_loop (params : List (Str × Value)) (tmpl : Str) :
    Render params tmpl = renderLoop params (FindAllStringSubmatch tmpl) tmpl := by
  unfold Render
  cases h : Contains tmpl ['$', '{'] with
  | false =>
    rw [findAll_eq_nil_of_not_contains tmpl h]
    rfl
  | true => rfl

/-! ## Conversion of values -/

mutual
theorem convertToString_noerr : ∀ v : Value, (convertToString v).2 = none
  | .str _ => rfl
  | .int _ => rfl
  | .bool _ => rfl
  | .seq items => by
    have h := convertItems_noerr items
    rw [convertToString]
    cases hc : convertItems items with
    | mk parts e =>
      rw [hc] at h
      simp only at h
      subst h
      rfl
theorem convertItems_noerr : ∀ items : List Value, (convertItems items).2 = none
  | [] => rfl
  | item :: rest => by
    have h1 := convertToString_noerr item
    have h2 := convertItems_noerr rest
    rw [convertItems]
    cases hc : convertToString item with
    | mk s e =>
      rw [hc] at h1
      simp only at h1
      subst h1
      cases hr : convertItems rest with
      | mk parts e' =>
        rw [hr] at h2
        simp only at h2
        subst h2
        rfl
end

theorem convertToString_eq (v : Value) : convertToString v = (valueText v, none) := by
  have h := convertToString_noerr v
  unfold valueText
  cases hc : convertToString v with
  | mk s e =>
    rw [hc] at h
    simp only at h
    subst h
    rfl

/-- One round of the loop of `Render` for a parameter that is present. -/
theorem renderLoop_cons_some (params : List (Str × Value)) (full name : Str)
    (rest : List (Str × Str)) (result : Str) (v : Value) (h : mapGet params name = some v) :
    renderLoop params ((full, name) :: rest) result =
      renderLoop params rest (Replace result full (valueText v)) := by
  rw [renderLoop, h]
  simp only [convertToString_eq]

/-- One round of the loop of `Render` for a parameter that is absent. -/
theorem renderLoop_cons_none (params : List (Str × Value)) (full name : Str)
    (rest : List (Str × Str)) (result : Str) (h : mapGet params name = none) :
    renderLoop params ((full, name) :: rest) result =
      ([], some ("parameter '".toList ++ name ++ "' not found".toList)) := by
  rw [renderLoop, h]

/-! ## Templates made of chunks -/

theorem matchHere_of_ne_dollar (c : Char) (t : Str) (hc : c ≠ '$') :
    matchHere (c :: t) = none := by
  cases t with
  | nil => rfl
  | cons c1 t' => simp [matchHere, hc]

theorem marker_isPrefixOf_of_ne_dollar (n : Str) (c : Char) (t : Str) (hc : c ≠ '$') :
    (marker n).isPrefixOf (c :: t) = false := by
  have h : ('$' == c) = false := by
    simp only [beq_eq_false_iff_ne, ne_eq]
    exact fun e => hc e.symm
  simp [marker, List.isPrefixOf_cons₂, h]

theorem marker_ne_nil (n : Str) : marker n ≠ [] := by
  simp [marker]

theorem findAll_lit (s rest : Str) (h : '$' ∉ s) :
    FindAllStringSubmatch (s ++ rest) = FindAllStringSubmatch rest := by
  induction s with
  | nil => rfl
  | cons c cs ih =>
    have hc : c ≠ '$' := fun e => h (e ▸ List.mem_cons_self _ _)
    have hcs : '$' ∉ cs := fun e => h (List.mem_cons_of_mem _ e)
    rw [List.cons_append, findAll_unfold, matchHere_of_ne_dollar _ _ hc]
    exact ih hcs

theorem findAll_var (n rest : Str) (hne : n ≠ []) (hclose : '}' ∉ n) :
    FindAllStringSubmatch (marker n ++ rest) = (marker n, n) :: FindAllStringSubmatch rest := by
  rw [findAll_unfold, (matchHere_eq_some _ n rest).2 ⟨rfl, hne, hclose⟩]

theorem replace_lit (s rest n new : Str) (h : '$' ∉ s) :
    Replace (s ++ rest) (marker n) new = s ++ Replace rest (marker n) new := by
  induction s with
  | nil => rfl
  | cons c cs ih =>
    have hc : c ≠ '$' := fun e => h (e ▸ List.mem_cons_self _ _)
    have hcs : '$' ∉ cs := fun e => h (List.mem_cons_of_mem _ e)
    rw [List.cons_append, replace_unfold _ _ _ (marker_ne_nil n),
      marker_isPrefixOf_of_ne_dollar _ _ _ hc]
    simp only [Bool.false_eq_true, if_false, List.cons_append]
    rw [ih hcs]

theorem replace_var_same (n rest new : Str) :
    Replace (marker n ++ rest) (marker n) new = new ++ Replace rest (marker n) new := by
  rw [replace_unfold _ _ _ (marker_ne_nil n)]
  have hp : (marker n).isPrefixOf (marker n ++ rest) = true :=
    List.isPrefixOf_iff_prefix.2 (List.prefix_append _ _)
  rw [hp, List.drop_left]
  rfl

/-- Two markers that start at the same place have the same name. -/
theorem marker_isPrefixOf_marker (n m rest : Str) (hn : '}' ∉ n) (hm : '}' ∉ m)
    (h : (marker n).isPrefixOf (marker m ++ rest) = true) : m = n := by
  obtain ⟨z, hz⟩ := List.isPrefixOf_iff_prefix.1 h
  have h1 : n ++ '}' :: z = m ++ '}' :: rest := by
    simpa [marker] using hz
  have h2 := congrArg (List.takeWhile isNameChar) h1
  rw [takeWhile_name _ _ hn, takeWhile_name _ _ hm] at h2
  exact h2.symm

theorem replace_var_other (n m rest new : Str) (hn : '}' ∉ n) (hm : '}' ∉ m)
    (hd : '$' ∉ m) (hne : m ≠ n) :
    Replace (marker m ++ rest) (marker n) new = marker m ++ Replace rest (marker n) new := by
  have hp : (marker n).isPrefixOf (marker m ++ rest) = false := by
    cases hq : (marker n).isPrefixOf (marker m ++ rest) with
    | false => rfl
    | true => exact absurd (marker_isPrefixOf_marker n m rest hn hm hq) hne
  rw [replace_unfold _ _ _ (marker_ne_nil n), hp]
  have hbody : '$' ∉ ('{' :: (m ++ ['}'])) := by
    simp only [List.mem_cons, List.mem_append, List.mem_singleton, not_or]
    exact ⟨by decide, hd, by decide, by simp⟩
  have hsplit : marker m ++ rest = '$' :: (('{' :: (m ++ ['}'])) ++ rest) := by
    simp [marker]
  rw [hsplit]
  simp only [Bool.false_eq_true, if_false]
  rw [replace_lit _ _ _ _ hbody]
  simp [marker]

theorem chunksText_cons (seg : Seg) (segs : List Seg) :
    chunksText (seg :: segs) = seg.text ++ chunksText segs := by
  simp [chunksText]

theorem findAll_chunks (segs : List Seg) (h : ∀ seg ∈ segs, seg.Plain) :
    FindAllStringSubmatch (chunksText segs) = (varNames segs).map (fun n => (marker n, n)) := by
  induction segs with
  | nil => rw [findAll_unfold]; rfl
  | cons seg rest ih =>
    have hrest : ∀ x ∈ rest, x.Plain := fun x hx => h x (List.mem_cons_of_mem _ hx)
    have hseg : seg.Plain := h seg (List.mem_cons_self _ _)
    rw [chunksText_cons]
    cases seg with
    | lit s =>
      rw [Seg.text, findAll_lit _ _ hseg, ih hrest]
      rfl
    | var n =>
      rw [Seg.text, findAll_var _ _ hseg.1 hseg.2.2, ih hrest]
      rfl

theorem replace_nil (old new : Str) (hold : old ≠ []) : Replace [] old new = [] := by
  rw [replace_unfold _ _ _ hold]
  obtain ⟨o, os, rfl⟩ := List.exists_cons_of_ne_nil hold
  rfl

theorem replace_chunks (segs : List Seg) (n new : Str) (h : ∀ seg ∈ segs, seg.Plain)
    (hn : '}' ∉ n) :
    Replace (chunksText segs) (marker n) new = chunksText (segs.map (replaceSeg n new)) := by
  induction segs with
  | nil => exact replace_nil _ _ (marker_ne_nil n)
  | cons seg rest ih =>
    have hrest : ∀ x ∈ rest, x.Plain := fun x hx => h x (List.mem_cons_of_mem _ hx)
    have hseg : seg.Plain := h seg (List.mem_cons_self _ _)
    rw [List.map_cons, chunksText_cons, chunksText_cons]
    cases seg with
    | lit s =>
      rw [Seg.text, replace_lit _ _ _ _ hseg, ih hrest]
      rfl
    | var m =>
      by_cases hmn : m = n
      · subst hmn
        rw [Seg.text, replace_var_same, ih hrest]
        simp [replaceSeg, Seg.text]
      · rw [Seg.text, replace_var_other _ _ _ _ hn hseg.2.2 hseg.2.1 hmn, ih hrest]
        simp [replaceSeg, hmn, Seg.text]

theorem replaceSeg_plain (n new : Str) (hnew : '$' ∉ new) (seg : Seg) (h : seg.Plain) :
    (replaceSeg n new seg).Plain := by
  cases seg with
  | lit s => exact h
  | var m =>
    by_cases hmn : m = n
    · simp only [replaceSeg, hmn, if_true]
      exact hnew
    · simp only [replaceSeg, hmn, if_false]
      exact h

theorem substNamed_replaceSeg (params : List (Str × Value)) (n : Str) (v : Value)
    (todo : List Str) (hv : mapGet params n = some v) (seg : Seg) :
    substNamed params todo (replaceSeg n (valueText v) seg) =
      substNamed params (n :: todo) seg := by
  cases seg with
  | lit s => rfl
  | var m =>
    by_cases hmn : m = n
    · subst hmn
      simp [replaceSeg, substNamed, substSeg, hv]
    · simp [replaceSeg, substNamed, hmn]

/-- The loop of `Render` on a template made of plain chunks, for parameters
whose string forms have no `$`: every placeholder named in the list is replaced
by the string form of its parameter. -/
theorem renderLoop_chunks (params : List (Str × Value)) (todo : List Str) :
    ∀ cur : List Seg, (∀ seg ∈ cur, seg.Plain) →
      (∀ n ∈ todo, '}' ∉ n ∧ ∃ v, mapGet params n = some v ∧ '$' ∉ valueText v) →
      renderLoop params (todo.map (fun n => (marker n, n))) (chunksText cur) =
        (chunksText (cur.map (substNamed params todo)), none) := by
  induction todo with
  | nil =>
    intro cur _ _
    have hid : ∀ l : List Seg, l.map (substNamed params []) = l := by
      intro l
      induction l with
      | nil => rfl
      | cons seg rest ih =>
        rw [List.map_cons, ih]
        cases seg <;> simp [substNamed]
    rw [hid]
    rfl
  | cons n rest ih =>
    intro cur hcur htodo
    obtain ⟨hn, v, hv, hdollar⟩ := htodo n (List.mem_cons_self _ _)
    have hrest : ∀ x ∈ rest, '}' ∉ x ∧ ∃ v, mapGet params x = some v ∧ '$' ∉ valueText v :=
      fun x hx => htodo x (List.mem_cons_of_mem _ hx)
    rw [List.map_cons, renderLoop_cons_some _ _ _ _ _ v hv, replace_chunks _ _ _ hcur hn]
    have hplain : ∀ seg ∈ cur.map (replaceSeg n (valueText v)), seg.Plain := by
      intro seg hseg
      obtain ⟨x, hx, rfl⟩ := List.mem_map.1 hseg
      exact replaceSeg_plain _ _ hdollar _ (hcur x hx)
    rw [ih _ hplain hrest, List.map_map]
    congr 2
    apply List.map_congr_left
    intro seg _
    exact substNamed_replaceSeg params n v rest hv seg

theorem mem_varNames (segs : List Seg) (n : Str) : n ∈ varNames segs ↔ Seg.var n ∈ segs := by
  induction segs with
  | nil => simp [varNames]
  | cons seg rest ih =>
    cases seg with
    | lit s => simp [varNames, ih]
    | var m =>
      simp only [varNames, List.mem_cons, ih, Seg.var.injEq]

/-- Rendering a template made of plain chunks, for parameters whose string
forms have no `$`, replaces every placeholder chunk by the string form of its
parameter. -/
theorem render_chunks (params : List (Str × Value)) (segs : List Seg)
    (hplain : ∀ seg ∈ segs, seg.Plain)
    (hval : ∀ n ∈ varNames segs, ∃ v, mapGet params n = some v ∧ '$' ∉ valueText v) :
    Render params (chunksText segs) = (chunksText (segs.map (substSeg params)), none) := by
  rw [render_eq_loop, findAll_chunks _ hplain, renderLoop_chunks params _ segs hplain]
  · congr 2
    apply List.map_congr_left
    intro seg hseg
    cases seg with
    | lit s => rfl
    | var m =>
      have : m ∈ varNames segs := (mem_varNames segs m).2 hseg
      simp [substNamed, this]
  · intro n hn
    have hseg := hplain _ ((mem_varNames segs n).1 hn)
    exact ⟨hseg.2.2, hval n hn⟩

/-! ## Rendering: the loop over the matches -/

/-- Every match the scan reports is a marker that occurs in the text, with a
non-empty name free of closing braces. -/
theorem findAll_sound (n : Nat) :
    ∀ s : Str, s.length ≤ n → ∀ m ∈ FindAllStringSubmatch s,
      m.1 = marker m.2 ∧ m.2 ≠ [] ∧ '}' ∉ m.2 ∧ marker m.2 <:+: s := by
  induction n with
  | zero =>
    intro s hs m hm
    have : s = [] := List.length_eq_zero.1 (Nat.le_zero.1 hs)
    subst this
    rw [findAll_unfold] at hm
    simp [matchHere] at hm
  | succ k ih =>
    intro s hs m hm
    rw [findAll_unfold] at hm
    cases hmh : matchHere s with
    | some r =>
      obtain ⟨name, rest⟩ := r
      obtain ⟨hdec, hne, hclose⟩ := (matchHere_eq_some s name rest).1 hmh
      rw [hmh] at hm
      simp only [List.mem_cons] at hm
      rcases hm with hm | hm
      · subst hm
        refine ⟨rfl, hne, hclose, ?_⟩
        rw [hdec]
        exact ⟨[], rest, by simp⟩
      · have hlen : rest.length ≤ k := by
          have : s.length = (marker name).length + rest.length := by rw [hdec]; simp
          simp [marker] at this
          omega
        obtain ⟨h1, h2, h3, h4⟩ := ih rest hlen m hm
        refine ⟨h1, h2, h3, ?_⟩
        rw [hdec]
        exact h4.trans (List.suffix_append _ _).isInfix
    | none =>
      rw [hmh] at hm
      cases s with
      | nil => simp at hm
      | cons c t =>
        simp only at hm
        simp only [List.length_cons] at hs
        obtain ⟨h1, h2, h3, h4⟩ := ih t (by omega) m hm
        exact ⟨h1, h2, h3, h4.trans (List.suffix_cons c t).isInfix⟩

theorem renderLoop_ok (params : List (Str × Value)) (ms : List (Str × Str)) :
    ∀ result : Str, (∀ m ∈ ms, mapGet params m.2 ≠ none) →
      (renderLoop params ms result).2 = none := by
  induction ms with
  | nil => intro result _; rfl
  | cons m rest ih =>
    intro result h
    obtain ⟨full, name⟩ := m
    have hm := h (full, name) (List.mem_cons_self _ _)
    cases hv : mapGet params name with
    | none => exact absurd hv hm
    | some v =>
      rw [renderLoop_cons_some _ _ _ _ _ v hv]
      exact ih _ (fun x hx => h x (List.mem_cons_of_mem _ hx))

theorem renderLoop_missing (params : List (Str × Value)) (ms : List (Str × Str)) :
    ∀ result : Str, (∃ m ∈ ms, mapGet params m.2 = none) →
      ∃ before m after, ms = before ++ m :: after ∧
        (∀ x ∈ before, mapGet params x.2 ≠ none) ∧ mapGet params m.2 = none ∧
        renderLoop params ms result = ([], some (parameterNotFound m.2)) := by
  induction ms with
  | nil =>
    intro result h
    obtain ⟨m, hm, _⟩ := h
    cases hm
  | cons m0 rest ih =>
    intro result h
    obtain ⟨full, name⟩ := m0
    cases hv : mapGet params name with
    | none =>
      refine ⟨[], (full, name), rest, rfl, ?_, hv, ?_⟩
      · intro x hx; cases hx
      · rw [renderLoop_cons_none _ _ _ _ _ hv]
        rfl
    | some v =>
      have hrest : ∃ m ∈ rest, mapGet params m.2 = none := by
        obtain ⟨m, hm, hnone⟩ := h
        rcases List.mem_cons.1 hm with hm | hm
        · subst hm
          rw [hv] at hnone
          cases hnone
        · exact ⟨m, hm, hnone⟩
      obtain ⟨before, m, after, hsplit, hbefore, hnone, hloop⟩ :=
        ih (Replace result full (valueText v)) hrest
      refine ⟨(full, name) :: before, m, after, by rw [hsplit]; rfl, ?_, hnone, ?_⟩
      · intro x hx
        rcases List.mem_cons.1 hx with hx | hx
        · subst hx
          rw [hv]
          simp
        · exact hbefore x hx
      · rw [renderLoop_cons_some _ _ _ _ _ v hv]
        exact hloop

/-! ## Rendering: the stated properties -/

/-- C10: a template without the two-character substring `$\x7b` is returned
unchanged, without error, whatever the parameter set. -/
theorem render_passthrough (params : List (Str × Value)) (tmpl : Str)
    (h : ¬ ['$', '{'] <:+: tmpl) : Render params tmpl = (tmpl, none) := by
  have hc : Contains tmpl ['$', '{'] = false := by
    cases hq : Contains tmpl ['$', '{'] with
    | false => rfl
    | true => exact absurd ((contains_iff _ _).1 hq) h
  simp [Render, hc]

/-- Witness for C10: a text with `$` and braces apart, and no parameter. -/
theorem render_passthrough_witness :
    ¬ ['$', '{'] <:+: "cost: $5 \x7bnet\x7d".toList ∧
    Render [] "cost: $5 \x7bnet\x7d".toList = ("cost: $5 \x7bnet\x7d".toList, none) :=
  ⟨by decide, render_passthrough [] "cost: $5 \x7bnet\x7d".toList (by decide)⟩

theorem placeholderNames_chunks (segs : List Seg) (h : ∀ seg ∈ segs, seg.Plain) :
    placeholderNames (chunksText segs) = varNames segs := by
  unfold placeholderNames
  rw [findAll_chunks segs h, List.map_map]
  exact (List.map_congr_left (fun _ _ => rfl)).trans (List.map_id _)

theorem dollar_mem_of_hasMarker (s : Str) (h : HasMarker s) : '$' ∈ s := by
  obtain ⟨pre, name, post, hs, _, _⟩ := h
  rw [hs]
  simp [marker]

theorem dollar_not_mem_chunks (segs : List Seg)
    (h : ∀ seg ∈ segs, '$' ∉ seg.text) : '$' ∉ chunksText segs := by
  induction segs with
  | nil => simp [chunksText]
  | cons seg rest ih =>
    rw [chunksText_cons, List.mem_append, not_or]
    exact ⟨h seg (List.mem_cons_self _ _), ih (fun x hx => h x (List.mem_cons_of_mem _ hx))⟩

/-- After every placeholder chunk has been replaced by a string form without
`$`, no `$` is left. -/
theorem dollar_not_mem_subst (params : List (Str × Value)) (segs : List Seg)
    (hplain : ∀ seg ∈ segs, seg.Plain)
    (hval : ∀ n ∈ varNames segs, ∃ v, mapGet params n = some v ∧ '$' ∉ valueText v) :
    '$' ∉ chunksText (segs.map (substSeg params)) := by
  apply dollar_not_mem_chunks
  intro seg hseg
  obtain ⟨x, hx, rfl⟩ := List.mem_map.1 hseg
  cases x with
  | lit s => exact hplain _ hx
  | var n =>
    obtain ⟨v, hv, hd⟩ := hval n ((mem_varNames segs n).2 hx)
    simp only [substSeg, hv, Seg.text]
    exact hd

/-- C6, the claim at a value that contains a marker: the only placeholder of
`$\x7ba\x7d` is `a`, which is a key, and `Render` succeeds, but its result
`$\x7bb\x7d` is a marker. -/
theorem render_marker_remains_counterexample :
    placeholderNames "$\x7ba\x7d".toList = ["a".toList] ∧
    (mapGet exParamsNested "a".toList).isSome = true ∧
    Render exParamsNested "$\x7ba\x7d".toList = ("$\x7bb\x7d".toList, none) ∧
    HasMarker (Render exParamsNested "$\x7ba\x7d".toList).1 :=
  ⟨by decide, by rfl, by decide, ⟨[], "b".toList, [], by decide, by decide, by decide⟩⟩

/-- C6 as amended: when every placeholder identifier of the template is a key
of the parameter set, `Render` succeeds; and when, in addition, the template
is spelled by plain chunks (text without `$`, placeholders with non-empty names
free of `$` and of closing braces) and the string form of every parameter the
template references has no `$`, the result has no `$` and so no marker. -/
theorem render_succeeds_no_marker (params : List (Str × Value)) (tmpl : Str)
    (hkeys : ∀ name ∈ placeholderNames tmpl, mapGet params name ≠ none) :
    (Render params tmpl).2 = none ∧
    ∀ segs : List Seg, chunksText segs = tmpl → (∀ seg ∈ segs, seg.Plain) →
      (∀ name ∈ placeholderNames tmpl, ∀ v, mapGet params name = some v →
        '$' ∉ valueText v) →
      '$' ∉ (Render params tmpl).1 ∧ ¬ HasMarker (Render params tmpl).1 := by
  constructor
  · rw [render_eq_loop]
    apply renderLoop_ok
    intro m hm
    exact hkeys m.2 (List.mem_map.2 ⟨m, hm, rfl⟩)
  · intro segs hsegs hplain hvals
    subst hsegs
    have hval : ∀ n ∈ varNames segs, ∃ v, mapGet params n = some v ∧ '$' ∉ valueText v := by
      intro n hn
      have hn' : n ∈ placeholderNames (chunksText segs) := by
        rw [placeholderNames_chunks segs hplain]; exact hn
      cases hv : mapGet params n with
      | none => exact absurd hv (hkeys n hn')
      | some v => exact ⟨v, rfl, hvals n hn' v hv⟩
    rw [render_chunks params segs hplain hval]
    have hd := dollar_not_mem_subst params segs hplain hval
    exact ⟨hd, fun hm => hd (dollar_mem_of_hasMarker _ hm)⟩

/-- Witness for C6: `Hello $\x7bwho\x7d!` with `who = "Ada"`. -/
theorem render_succeeds_no_marker_witness :
    (Render exParamsWho (chunksText exChunksHello)).2 = none ∧
    ¬ HasMarker (Render exParamsWho (chunksText exChunksHello)).1 ∧
    Render exParamsWho (chunksText exChunksHello) = ("Hello Ada!".toList, none) :=
  have hkeys : ∀ name ∈ placeholderNames (chunksText exChunksHello),
      mapGet exParamsWho name ≠ none := by
    intro name hname
    have hlist : placeholderNames (chunksText exChunksHello) = ["who".toList] := by decide
    rw [hlist, List.mem_singleton] at hname
    subst hname
    intro h
    cases h
  have hvals : ∀ name ∈ placeholderNames (chunksText exChunksHello), ∀ v,
      mapGet exParamsWho name = some v → '$' ∉ valueText v := by
    intro name hname v hv
    have hlist : placeholderNames (chunksText exChunksHello) = ["who".toList] := by decide
    rw [hlist, List.mem_singleton] at hname
    subst hname
    have hv' : some (Value.str "Ada".toList) = some v := hv
    cases hv'
    decide
  ⟨(render_succeeds_no_marker exParamsWho (chunksText exChunksHello) hkeys).1,
   ((render_succeeds_no_marker exParamsWho (chunksText exChunksHello) hkeys).2
      exChunksHello rfl (by decide) hvals).2,
   by decide⟩

/-- C7, the claim at a value that is the marker of a later placeholder: in
`$\x7ba\x7d$\x7bb\x7d` with `a = "$\x7bb\x7d"` and `b = "x"`, replacing each
placeholder by the string form of its parameter gives `$\x7bb\x7dx`, but
`Render` returns `xx`: the text introduced for `a` has been substituted. -/
theorem render_resubstitutes_counterexample :
    chunksText exChunksAB = "$\x7ba\x7d$\x7bb\x7d".toList ∧
    chunksText (exChunksAB.map (substSeg exParamsNested)) = "$\x7bb\x7dx".toList ∧
    Render exParamsNested (chunksText exChunksAB) = ("xx".toList, none) ∧
    (Render exParamsNested (chunksText exChunksAB)).1 ≠
      chunksText (exChunksAB.map (substSeg exParamsNested)) :=
  ⟨by decide, by decide, by decide, by decide⟩

/-- C7 as amended: for a template spelled by plain chunks (text without `$`,
placeholders with non-empty names free of `$` and of closing braces) and
parameters whose string forms have no `$`, `Render` succeeds and its result is
the template with each placeholder occurrence replaced by the string form of
its parameter. -/
theorem render_single_pass (params : List (Str × Value)) (segs : List Seg)
    (hplain : ∀ seg ∈ segs, seg.Plain)
    (hval : ∀ n ∈ varNames segs, ∃ v, mapGet params n = some v ∧ '$' ∉ valueText v) :
    placeholderNames (chunksText segs) = varNames segs ∧
    Render params (chunksText segs) = (chunksText (segs.map (substSeg params)), none) :=
  ⟨placeholderNames_chunks segs hplain, render_chunks params segs hplain hval⟩

/-- Witness for C7: `Hello $\x7bwho\x7d!` with `who = "Ada"`. -/
theorem render_single_pass_witness :
    placeholderNames (chunksText exChunksHello) = varNames exChunksHello ∧
    Render exParamsWho (chunksText exChunksHello) =
      (chunksText (exChunksHello.map (substSeg exParamsWho)), none) :=
  render_single_pass exParamsWho exChunksHello (by decide)
    (by
      intro n hn
      have hlist : varNames exChunksHello = ["who".toList] := by decide
      rw [hlist, List.mem_singleton] at hn
      subst hn
      exact ⟨.str "Ada".toList, rfl, by decide⟩)

/-- C9: a template `pre ++ "$\x7b" ++ name ++ "\x7d" ++ post` whose `pre` and
`post` have no `$` and whose `name` is non-empty without `$` and closing brace
renders, when the parameter set maps `name` to the string `v`, to exactly
`pre ++ v ++ post`, whatever `v` is. -/
theorem render_one_placeholder (params : List (Str × Value)) (pre name post v : Str)
    (hpre : '$' ∉ pre) (hpost : '$' ∉ post) (hne : name ≠ []) (hdollar : '$' ∉ name)
    (hclose : '}' ∉ name) (hv : mapGet params name = some (.str v)) :
    Render params (pre ++ ['$', '{'] ++ name ++ ['}'] ++ post) = (pre ++ v ++ post, none) := by
  have hplain : ∀ seg ∈ [Seg.lit pre, Seg.var name, Seg.lit post], seg.Plain := by
    intro seg hseg
    simp only [List.mem_cons, List.mem_singleton, List.not_mem_nil, or_false] at hseg
    rcases hseg with rfl | rfl | rfl
    · exact hpre
    · exact ⟨hne, hdollar, hclose⟩
    · exact hpost
  have htext : pre ++ ['$', '{'] ++ name ++ ['}'] ++ post =
      chunksText [Seg.lit pre, Seg.var name, Seg.lit post] := by
    simp [chunksText, Seg.text, marker]
  rw [htext, render_eq_loop, findAll_chunks _ hplain]
  simp only [varNames, List.map_cons, List.map_nil]
  rw [renderLoop_cons_some _ _ _ _ _ (.str v) hv, replace_chunks _ _ _ hplain hclose]
  simp [renderLoop, replaceSeg, chunksText, Seg.text, valueText, convertToString]

/-- Witness for C9: the body template `\x7b"name":"$\x7bname\x7d"\x7d` with
`name = "Ada"` renders to exactly `\x7b"name":"Ada"\x7d`. -/
theorem render_one_placeholder_witness :
    "\x7b\"name\":\"".toList ++ ['$', '{'] ++ "name".toList ++ ['}'] ++ "\"\x7d".toList =
      "\x7b\"name\":\"$\x7bname\x7d\"\x7d".toList ∧
    Render exParamsName
        ("\x7b\"name\":\"".toList ++ ['$', '{'] ++ "name".toList ++ ['}'] ++ "\"\x7d".toList) =
      ("\x7b\"name\":\"".toList ++ "Ada".toList ++ "\"\x7d".toList, none) ∧
    "\x7b\"name\":\"".toList ++ "Ada".toList ++ "\"\x7d".toList =
      "\x7b\"name\":\"Ada\"\x7d".toList :=
  ⟨by decide,
   render_one_placeholder exParamsName "\x7b\"name\":\"".toList "name".toList "\"\x7d".toList
     "Ada".toList (by decide) (by decide) (by decide) (by decide) (by decide) rfl,
   by decide⟩

/-- C8: in a single-level tree whose module `m` declares a fragment mapping the
header `k` to the template `h` and has an API `a` whose request has no header
`k`, resolving the path `[m]` with `a` succeeds and the merged request keeps
the URL template of the API and has `h` for the header `k`; so rendering them
gives `Render` of the URL template and of `h`. -/
theorem resolve_merge_render (tree : List (Str × Module)) (m a k h : Str) (md : Module)
    (frag : RequestConfig) (spec : APISpec) (params : List (Str × Value))
    (hm : mapGet tree m = some md) (hfrag : md.Request = some frag)
    (hnodup : KeysNodup frag.Headers) (hk : mapGet frag.Headers k = some h)
    (ha : mapGet md.APIs a = some spec) (hnodup' : KeysNodup spec.Request.Headers)
    (hnone : mapGet spec.Request.Headers k = none) :
    (CollectModuleInfo tree [m] a).err = none ∧
    (CollectModuleInfo tree [m] a).apiSpec = some spec ∧
    (CollectModuleInfo tree [m] a).reqs = [frag] ∧
    (MergeRequestConfigs (CollectModuleInfo tree [m] a).reqs spec.Request).URL =
      spec.Request.URL ∧
    mapGet (MergeRequestConfigs (CollectModuleInfo tree [m] a).reqs spec.Request).Headers k =
      some h ∧
    Render params (MergeRequestConfigs (CollectModuleInfo tree [m] a).reqs spec.Request).URL =
      Render params spec.Request.URL ∧
    (mapGet (MergeRequestConfigs (CollectModuleInfo tree [m] a).reqs spec.Request).Headers
        k).map (Render params) = some (Render params h) := by
  have hc : CollectModuleInfo tree [m] a =
      { params := md.Params, reqs := [frag], apiSpec := some spec, err := none } := by
    rw [collect_single, hm]
    simp only [ha, hfrag]
    rfl
  have hget : mapGet (MergeRequestConfigs [frag] spec.Request).Headers k = some h := by
    simp only [MergeRequestConfigs, List.foldl_cons, List.foldl_nil]
    rw [mapGet_applyHeaders _ _ _ hnodup', hnone]
    simp only
    rw [mapGet_applyHeaders _ _ _ hnodup, hk]
  rw [hc]
  refine ⟨rfl, rfl, rfl, rfl, hget, rfl, ?_⟩
  simp only
  rw [hget]
  rfl

/-- Witness for C8: module `users` with the header
`Authorization: Bearer $\x7btoken\x7d`, API `get` with the URL
`/users/$\x7bid\x7d` and the parameters `token = "abc"`, `id = "42"` give the
URL `/users/42` and the header `Authorization: Bearer abc`. -/
theorem resolve_merge_render_witness :
    Render exParamsUsers
        (MergeRequestConfigs (CollectModuleInfo exTreeUsers ["users".toList] "get".toList).reqs
          exApiGet.Request).URL = ("/users/42".toList, none) ∧
    (mapGet (MergeRequestConfigs
        (CollectModuleInfo exTreeUsers ["users".toList] "get".toList).reqs
          exApiGet.Request).Headers "Authorization".toList).map (Render exParamsUsers) =
      some ("Bearer abc".toList, none) :=
  have h := resolve_merge_render exTreeUsers "users".toList "get".toList
    "Authorization".toList "Bearer $\x7btoken\x7d".toList exModuleUsers
    { Headers := [("Authorization".toList, "Bearer $\x7btoken\x7d".toList)] } exApiGet
    exParamsUsers rfl rfl (by decide) (by decide) (by decide) (by decide) (by decide)
  ⟨h.2.2.2.2.2.1.trans (by decide), h.2.2.2.2.2.2.trans (by decide)⟩

/-! ## Decimal digits -/

theorem digitChar_facts (k : Nat) (hk : k < 10) :
    isDigit (Nat.digitChar k) = true ∧ digitVal (Nat.digitChar k) = k ∧
      (Nat.digitChar k = '0' ↔ k = 0) := by
  interval_cases k <;> decide

theorem digitsValue_append (ds : Str) (c : Char) :
    digitsValue (ds ++ [c]) = digitsValue ds * 10 + digitVal c := by
  simp [digitsValue, List.foldl_append]

/-- The digits that `Nat.toDigitsCore` puts in front of its accumulator. -/
theorem toDigitsCore_spec (fuel : Nat) :
    ∀ (n : Nat) (acc : Str), n < fuel →
      ∃ pre : Str, Nat.toDigitsCore 10 fuel n acc = pre ++ acc ∧ pre ≠ [] ∧
        (∀ c ∈ pre, isDigit c = true) ∧ (n = 0 → pre = ['0']) ∧
        (0 < n → pre.head? ≠ some '0') ∧ digitsValue pre = n := by
  induction fuel with
  | zero => intro n acc h; omega
  | succ f ih =>
    intro n acc hn
    have hmod : n % 10 < 10 := Nat.mod_lt _ (by decide)
    obtain ⟨hd1, hd2, hd3⟩ := digitChar_facts (n % 10) hmod
    simp only [Nat.toDigitsCore]
    by_cases hq : n / 10 = 0
    · simp only [hq, if_true]
      have hlt : n < 10 := by omega
      have hmodn : n % 10 = n := Nat.mod_eq_of_lt hlt
      refine ⟨[Nat.digitChar (n % 10)], rfl, by simp, ?_, ?_, ?_, ?_⟩
      · intro c hc
        rw [List.mem_singleton] at hc
        rw [hc]; exact hd1
      · intro h0
        rw [h0]; rfl
      · intro hpos
        simp only [List.head?_cons, ne_eq, Option.some.injEq]
        rw [hd3]; omega
      · rw [hmodn] at hd2
        simp [digitsValue, hd2, hmodn]
    · simp only [hq, if_false]
      have hlt : n / 10 < f := by omega
      obtain ⟨pre, hpre, hne, hall, _, hhead, hval⟩ :=
        ih (n / 10) (Nat.digitChar (n % 10) :: acc) hlt
      refine ⟨pre ++ [Nat.digitChar (n % 10)], ?_, by simp, ?_, ?_, ?_, ?_⟩
      · rw [hpre]; simp
      · intro c hc
        rcases List.mem_append.1 hc with hc | hc
        · exact hall c hc
        · rw [List.mem_singleton] at hc
          rw [hc]; exact hd1
      · intro h0; omega
      · intro _
        obtain ⟨x, xs, rfl⟩ := List.exists_cons_of_ne_nil hne
        have := hhead (by omega)
        simpa using this
      · rw [digitsValue_append, hval, hd2]
        omega

/-- The decimal digits of a natural number. -/
theorem toDigits_spec (n : Nat) :
    Nat.toDigits 10 n ≠ [] ∧ (∀ c ∈ Nat.toDigits 10 n, isDigit c = true) ∧
      (n = 0 → Nat.toDigits 10 n = ['0']) ∧
      (0 < n → (Nat.toDigits 10 n).head? ≠ some '0') ∧
      digitsValue (Nat.toDigits 10 n) = n := by
  obtain ⟨pre, hpre, hne, hall, hzero, hhead, hval⟩ :=
    toDigitsCore_spec (n + 1) n [] (Nat.lt_succ_self n)
  have h : Nat.toDigits 10 n = pre := by
    rw [Nat.toDigits, hpre, List.append_nil]
  rw [h]
  exact ⟨hne, hall, hzero, hhead, hval⟩

/-- The decimal form `Itoa` is canonical. -/
theorem itoa_canonical (i : Int) : IsCanonicalDecimal (Itoa i) i := by
  obtain ⟨hne, hall, hzero, hhead, hval⟩ := toDigits_spec i.natAbs
  refine ⟨Nat.toDigits 10 i.natAbs, ?_, hne, hall, ?_, hval⟩
  · unfold Itoa
    by_cases hi : i < 0 <;> simp [hi]
  · by_cases h0 : i.natAbs = 0
    · exact Or.inl (hzero h0)
    · exact Or.inr (hhead (Nat.pos_of_ne_zero h0))

/-! ## Conversion of values: the stated properties -/

theorem join_eq_intercalate (parts : List Str) (sep : Str) :
    Join parts sep = List.intercalate sep parts := by
  induction parts with
  | nil => rfl
  | cons a rest ih =>
    cases rest with
    | nil => simp [Join, List.intercalate]
    | cons b rest' =>
      rw [Join, ih]
      simp [List.intercalate]

theorem convertItems_eq (items : List Value) :
    convertItems items = (items.map valueText, none) := by
  induction items with
  | nil => rfl
  | cons item rest ih =>
    rw [convertItems, convertToString_eq, ih]
    rfl

/-- C11: `convertToString` never returns an error; a string converts to
itself, an integer to its canonical decimal form (digits without leading
zeros, `-` only if negative), a boolean to `true` or `false`, and a sequence
to the conversions of its elements, in order, joined by `,` (the empty
sequence to the empty string). -/
theorem convertToString_rules :
    (∀ v : Value, (convertToString v).2 = none) ∧
    (∀ s : Str, convertToString (.str s) = (s, none)) ∧
    (∀ i : Int, (convertToString (.int i)).2 = none ∧
      IsCanonicalDecimal (convertToString (.int i)).1 i) ∧
    (∀ b : Bool, convertToString (.bool b) =
      (if b then "true".toList else "false".toList, none)) ∧
    (∀ items : List Value, convertToString (.seq items) =
      (List.intercalate ",".toList (items.map (fun v => (convertToString v).1)), none)) ∧
    convertToString (.seq []) = ([], none) ∧
    convertToString (.seq [.int (-12), .bool true, .seq [.str "q".toList, .int 0]]) =
      ("-12,true,q,0".toList, none) := by
  refine ⟨convertToString_noerr, fun _ => rfl, fun i => ⟨rfl, itoa_canonical i⟩,
    fun _ => rfl, ?_, rfl, by decide⟩
  intro items
  rw [convertToString, convertItems_eq]
  simp only [join_eq_intercalate]
  rfl

/-! ## Integer parsing -/

theorem maxUint64_eq : maxUint64 = 18446744073709551615 := by
  decide

theorem foldl_digits_ge (ds : Str) :
    ∀ n : Nat, n ≤ ds.foldl (fun n c => n * 10 + digitVal c) n := by
  induction ds with
  | nil => intro n; exact le_refl _
  | cons c rest ih =>
    intro n
    rw [List.foldl_cons]
    exact le_trans (by omega) (ih _)

/-- The loop of `ParseUint`: it ends without error exactly on digits whose
value, continued from `n`, fits 64 bits, and then returns that value; a range
error comes with the largest value. -/
theorem parseUintLoop_spec (ds : Str) :
    ∀ n : Nat, n ≤ maxUint64 →
      ((parseUintLoop ds n).2 = none ↔
        (∀ c ∈ ds, isDigit c = true) ∧
          ds.foldl (fun n c => n * 10 + digitVal c) n ≤ maxUint64) ∧
      ((parseUintLoop ds n).2 = none →
        (parseUintLoop ds n).1 = ds.foldl (fun n c => n * 10 + digitVal c) n) ∧
      ((parseUintLoop ds n).2 = some "value out of range".toList →
        (parseUintLoop ds n).1 = maxUint64) := by
  induction ds with
  | nil =>
    intro n hn
    simp [parseUintLoop, hn]
  | cons c rest ih =>
    intro n hn
    have hge := foldl_digits_ge rest (n * 10 + digitVal c)
    have hmax := maxUint64_eq
    by_cases hc : isDigit c = true
    · by_cases hcut : n ≥ maxUint64 / 10 + 1
      · have hbig : ¬ (n * 10 + digitVal c ≤ maxUint64) := by
          rw [hmax] at hcut ⊢
          omega
        have hres : parseUintLoop (c :: rest) n =
            (2 ^ IntSize - 1, some "value out of range".toList) := by
          simp [parseUintLoop, hc, hcut]
        rw [hres]
        refine ⟨⟨fun h => (by cases h), fun h => ?_⟩, fun h => (by cases h), fun _ => by decide⟩
        rw [List.foldl_cons] at h
        exact absurd (le_trans hge h.2) hbig
      · by_cases hov : n * 10 + digitVal c > maxUint64 ∨ n * 10 + digitVal c > 2 ^ IntSize - 1
        · have hbig : ¬ (n * 10 + digitVal c ≤ maxUint64) := by
            have h64 : 2 ^ IntSize - 1 = maxUint64 := by decide
            rw [h64] at hov
            omega
          have hres : parseUintLoop (c :: rest) n =
              (2 ^ IntSize - 1, some "value out of range".toList) := by
            simp only [parseUintLoop, hc, if_true, hcut, if_false, hov]
          rw [hres]
          refine ⟨⟨fun h => (by cases h), fun h => ?_⟩, fun h => (by cases h), fun _ => by decide⟩
          rw [List.foldl_cons] at h
          exact absurd (le_trans hge h.2) hbig
        · have hres : parseUintLoop (c :: rest) n =
              parseUintLoop rest (n * 10 + digitVal c) := by
            simp only [parseUintLoop, hc, if_true, hcut, if_false, hov]
          rw [hres, List.foldl_cons]
          obtain ⟨h1, h2, h3⟩ := ih (n * 10 + digitVal c) (by omega)
          refine ⟨?_, h2, h3⟩
          rw [h1]
          simp [hc]
    · have hres : parseUintLoop (c :: rest) n = (0, some "invalid syntax".toList) := by
        simp [parseUintLoop, hc]
      rw [hres]
      refine ⟨⟨fun h => (by cases h), fun h => ?_⟩, fun h => (by cases h), fun h => ?_⟩
      · exact absurd (h.1 c (List.mem_cons_self _ _)) hc
      · exact absurd h (by decide)

theorem parseUint_spec (ds : Str) :
    ((ParseUint ds).2 = none ↔
      ds ≠ [] ∧ (∀ c ∈ ds, isDigit c = true) ∧ digitsValue ds ≤ maxUint64) ∧
    ((ParseUint ds).2 = none → (ParseUint ds).1 = digitsValue ds) ∧
    ((ParseUint ds).2 = some "value out of range".toList → (ParseUint ds).1 = maxUint64) := by
  unfold ParseUint
  by_cases hds : ds = []
  · subst hds
    simp only [if_true]
    refine ⟨⟨fun h => (by cases h), fun h => absurd rfl h.1⟩, fun h => (by cases h), fun h => ?_⟩
    exact absurd h (by decide)
  · simp only [hds, if_false]
    obtain ⟨h1, h2, h3⟩ := parseUintLoop_spec ds 0 (Nat.zero_le _)
    refine ⟨?_, h2, h3⟩
    rw [h1]
    unfold digitsValue
    simp [hds]

/-- The sign handling and the range test of `ParseInt`, after `ParseUint`. -/
theorem parseInt_cons (c : Char) (t : Str) :
    ParseInt (c :: t) =
      signedResult (decide (c = '-')) (ParseUint (signedDigits (c :: t))) := by
  simp only [ParseInt, signedDigits, signedResult]
  cases hP : ParseUint (if c = '+' ∨ c = '-' then t else c :: t) with
  | mk un e =>
    cases e with
    | none => simp
    | some err =>
      by_cases herr : err = "value out of range".toList
      · simp [herr]
      · simp [herr]

theorem rawInt_cons (c : Char) (t : Str) :
    rawInt (c :: t) =
      if c = '-' then -(digitsValue (signedDigits (c :: t)) : Int)
      else (digitsValue (signedDigits (c :: t)) : Int) := by
  simp [rawInt]

/-- The outcome of `signedResult` on a result of `ParseUint` for digits of
value `d`: no error exactly when the digits are good and the signed value is
an `int` of 64 bits, and then the signed value. -/
theorem signedResult_spec (neg : Bool) (un d : Nat) (e : Option Str) (good : Prop)
    (hiff : e = none ↔ good ∧ d ≤ maxUint64) (hval : e = none → un = d)
    (hrange : e = some "value out of range".toList → un = maxUint64) :
    ((signedResult neg (un, e)).2 = none ↔
      good ∧ -(2 : Int) ^ 63 ≤ (if neg then -(d : Int) else (d : Int)) ∧
        (if neg then -(d : Int) else (d : Int)) < (2 : Int) ^ 63) ∧
    ((signedResult neg (un, e)).2 = none →
      (signedResult neg (un, e)).1 = (if neg then -(d : Int) else (d : Int))) := by
  have hmax := maxUint64_eq
  have h63 : (2 : Int) ^ 63 = 9223372036854775808 := by norm_num
  have h63n : 2 ^ (IntSize - 1) = 9223372036854775808 := by decide
  have h63i : (2 : Int) ^ (IntSize - 1) = 9223372036854775808 := by
    have : IntSize - 1 = 63 := rfl
    rw [this]; norm_num
  rw [h63]
  unfold signedResult
  simp only [h63n, h63i]
  cases e with
  | none =>
    have hun := hval rfl
    obtain ⟨hgood, _⟩ := hiff.1 rfl
    subst hun
    cases neg with
    | true =>
      by_cases hbig : un > 9223372036854775808
      · simp [hbig, hgood]
      · simp [hbig, hgood]
        omega
    | false =>
      by_cases hbig : un ≥ 9223372036854775808
      · simp [hbig, hgood]
      · simp [hbig, hgood]
        omega
  | some err =>
    have hnot : ¬ (good ∧ d ≤ maxUint64) := fun h => by
      have := hiff.2 h
      cases this
    have hrhs : ¬ (good ∧ -9223372036854775808 ≤ (if neg then -(d : Int) else (d : Int)) ∧
        (if neg then -(d : Int) else (d : Int)) < 9223372036854775808) := by
      rintro ⟨h1, h3, h4⟩
      apply hnot
      refine ⟨h1, ?_⟩
      rw [hmax]
      cases neg with
      | true =>
        simp only [if_true] at h3
        omega
      | false =>
        simp only [Bool.false_eq_true, if_false] at h4
        omega
    by_cases herr : err = "value out of range".toList
    · have hun : un = maxUint64 := hrange (by rw [herr])
      rw [hmax] at hun
      subst hun
      subst herr
      cases neg with
      | true =>
        refine ⟨⟨fun h => ?_, fun h => absurd h hrhs⟩, fun h => ?_⟩ <;> simp at h
      | false =>
        refine ⟨⟨fun h => ?_, fun h => absurd h hrhs⟩, fun h => ?_⟩ <;> simp at h
    · have hcond : some err ≠ none ∧ some err ≠ some "value out of range".toList :=
        ⟨Option.some_ne_none _, fun h => herr (Option.some.inj h)⟩
      refine ⟨⟨fun h => ?_, fun h => absurd h hrhs⟩, fun h => ?_⟩ <;>
        · rw [if_pos hcond] at h
          cases h

/-- What `Atoi` accepts and returns: the raw text must be a base-10 integer
whose value is an `int` of 64 bits, and the result is that value. -/
theorem atoi_spec (raw : Str) :
    ((Atoi raw).2 = none ↔
      IsDecimalInteger raw ∧ -(2 : Int) ^ 63 ≤ rawInt raw ∧ rawInt raw < (2 : Int) ^ 63) ∧
    ((Atoi raw).2 = none → (Atoi raw).1 = rawInt raw) := by
  unfold Atoi
  cases raw with
  | nil =>
    refine ⟨⟨fun h => ?_, fun h => ?_⟩, fun h => ?_⟩
    · simp [ParseInt] at h
    · exact absurd rfl h.1.1
    · simp [ParseInt] at h
  | cons c t =>
    obtain ⟨hiff, hval, hrange⟩ := parseUint_spec (signedDigits (c :: t))
    have hrw : rawInt (c :: t) =
        (if decide (c = '-') = true then -(digitsValue (signedDigits (c :: t)) : Int)
         else (digitsValue (signedDigits (c :: t)) : Int)) := by
      rw [rawInt_cons]
      by_cases hc : c = '-' <;> simp [hc]
    rw [parseInt_cons, hrw]
    unfold IsDecimalInteger
    have hiff' : (ParseUint (signedDigits (c :: t))).2 = none ↔
        (signedDigits (c :: t) ≠ [] ∧ ∀ c' ∈ signedDigits (c :: t), isDigit c' = true) ∧
          digitsValue (signedDigits (c :: t)) ≤ maxUint64 := by
      rw [hiff, and_assoc]
    exact signedResult_spec (decide (c = '-')) (ParseUint (signedDigits (c :: t))).1
      (digitsValue (signedDigits (c :: t))) (ParseUint (signedDigits (c :: t))).2 _
      hiff' hval hrange

/-! ## Type validation: the stated properties -/

theorem validateType_integer (pf : Str → Bool) (raw : Str) :
    ValidateType pf raw "integer".toList =
      if (Atoi raw).2 ≠ none then some "value must be an integer".toList else none := by
  unfold ValidateType
  have h1 : HasPrefix "integer".toList "array[".toList = false := by decide
  rw [h1]
  simp

theorem validateType_boolean (pf : Str → Bool) (raw : Str) :
    ValidateType pf raw "boolean".toList =
      if raw ≠ "true".toList ∧ raw ≠ "false".toList then
        some "value must be a boolean".toList
      else none := by
  unfold ValidateType
  have h1 : HasPrefix "boolean".toList "array[".toList = false := by decide
  have h2 : ¬ "boolean".toList = "integer".toList := by decide
  rw [h1]
  simp only [Bool.false_eq_true, if_false, h2, if_true]

/-- C12, the claim at a magnitude that is not an `int`: `9223372036854775808`
(2^63) is a sign-free run of decimal digits, yet `ValidateType` rejects it for
the type `integer`. -/
theorem validateType_integer_range_counterexample :
    IsDecimalInteger "9223372036854775808".toList ∧
    ValidateType (fun _ => false) "9223372036854775808".toList "integer".toList =
      some "value must be an integer".toList := by
  decide

/-- C12 as amended: `ValidateType(raw, "integer")` succeeds exactly when the
raw text is a base-10 integer (an optional sign, then one or more decimal
digits, and nothing else) whose value is an `int` of 64 bits, from `-2^63` to
`2^63 - 1`; every other raw text is rejected with the type error, among them
`abc`, the empty text, `1.5` and ` 5`. -/
theorem validateType_integer_iff (pf : Str → Bool) (raw : Str) :
    (ValidateType pf raw "integer".toList = none ↔
      IsDecimalInteger raw ∧ -(2 : Int) ^ 63 ≤ rawInt raw ∧ rawInt raw < (2 : Int) ^ 63) ∧
    (ValidateType pf raw "integer".toList ≠ none →
      ValidateType pf raw "integer".toList = some "value must be an integer".toList) ∧
    ValidateType pf "abc".toList "integer".toList = some "value must be an integer".toList ∧
    ValidateType pf [] "integer".toList = some "value must be an integer".toList ∧
    ValidateType pf "1.5".toList "integer".toList = some "value must be an integer".toList ∧
    ValidateType pf " 5".toList "integer".toList = some "value must be an integer".toList ∧
    ValidateType pf "-9223372036854775808".toList "integer".toList = none := by
  refine ⟨?_, ?_, ?_, ?_, ?_, ?_, ?_⟩
  · rw [validateType_integer, ← (atoi_spec raw).1]
    by_cases h : (Atoi raw).2 = none <;> simp [h]
  · rw [validateType_integer]
    by_cases h : (Atoi raw).2 = none <;> simp [h]
  all_goals
    rw [validateType_integer]
    decide

/-- C13: for a declared type other than `integer` and `number`: when the type
starts with `array[` the raw text is accepted exactly when it starts with `[`
and ends with `]`; when the type is `boolean`, exactly when it is `true` or
`false`; for any other type it is always accepted. -/
theorem validateType_table (pf : Str → Bool) (raw t : Str)
    (hint : t ≠ "integer".toList) (hnum : t ≠ "number".toList) :
    ("array[".toList <+: t →
      (ValidateType pf raw t = none ↔ "[".toList <+: raw ∧ "]".toList <:+ raw) ∧
      (ValidateType pf raw t ≠ none →
        ValidateType pf raw t = some "value must be an array".toList)) ∧
    (t = "boolean".toList →
      (ValidateType pf raw t = none ↔ raw = "true".toList ∨ raw = "false".toList) ∧
      (ValidateType pf raw t ≠ none →
        ValidateType pf raw t = some "value must be a boolean".toList)) ∧
    (¬ "array[".toList <+: t → t ≠ "boolean".toList → ValidateType pf raw t = none) := by
  refine ⟨?_, ?_, ?_⟩
  · intro harr
    have h1 : HasPrefix t "array[".toList = true := List.isPrefixOf_iff_prefix.2 harr
    have hv : ValidateType pf raw t =
        if !HasPrefix raw "[".toList || !HasSuffix raw "]".toList then
          some "value must be an array".toList
        else none := by
      unfold ValidateType
      rw [h1]
      rfl
    rw [hv]
    have hp : HasPrefix raw "[".toList = true ↔ "[".toList <+: raw :=
      List.isPrefixOf_iff_prefix
    have hs : HasSuffix raw "]".toList = true ↔ "]".toList <:+ raw :=
      List.isSuffixOf_iff_suffix
    rw [← hp, ← hs]
    cases HasPrefix raw "[".toList <;> cases HasSuffix raw "]".toList <;> simp
  · intro hbool
    subst hbool
    rw [validateType_boolean]
    by_cases h1 : raw = "true".toList
    · rw [if_neg (fun h => h.1 h1)]
      exact ⟨⟨fun _ => Or.inl h1, fun _ => rfl⟩, fun h => absurd rfl h⟩
    · by_cases h2 : raw = "false".toList
      · rw [if_neg (fun h => h.2 h2)]
        exact ⟨⟨fun _ => Or.inr h2, fun _ => rfl⟩, fun h => absurd rfl h⟩
      · rw [if_pos ⟨h1, h2⟩]
        refine ⟨⟨fun h => (by cases h), fun h => ?_⟩, fun _ => rfl⟩
        rcases h with h | h
        · exact absurd h h1
        · exact absurd h h2
  · intro harr hbool
    have h1 : HasPrefix t "array[".toList = false := by
      cases h : HasPrefix t "array[".toList with
      | false => rfl
      | true => exact absurd (List.isPrefixOf_iff_prefix.1 h) harr
    unfold ValidateType
    rw [h1, if_neg (by decide), if_neg hint, if_neg hbool, if_neg hnum]

/-- Witness for C13: `yes` is rejected for `boolean` and `(1,2)` for
`array[int]`, while `[1,2]` and `true` are accepted, and so is anything for
`string`. -/
theorem validateType_table_witness :
    ValidateType (fun _ => false) "yes".toList "boolean".toList =
      some "value must be a boolean".toList ∧
    ValidateType (fun _ => false) "(1,2)".toList "array[int]".toList =
      some "value must be an array".toList ∧
    ValidateType (fun _ => false) "[1,2]".toList "array[int]".toList = none ∧
    ValidateType (fun _ => false) "True".toList "string".toList = none :=
  ⟨((validateType_table (fun _ => false) "yes".toList "boolean".toList
      (by decide) (by decide)).2.1 rfl).2 (by decide),
   ((validateType_table (fun _ => false) "(1,2)".toList "array[int]".toList
      (by decide) (by decide)).1 (by decide)).2 (by decide),
   ((validateType_table (fun _ => false) "[1,2]".toList "array[int]".toList
      (by decide) (by decide)).1 (by decide)).1.2 (by decide),
   (validateType_table (fun _ => false) "True".toList "string".toList
      (by decide) (by decide)).2.2 (by decide) (by decide)⟩

/-! ## From a raw value to its rendering -/

/-- Rendering the template that is one placeholder gives the string form of
its parameter. -/
theorem render_marker (p : Str) (v : Value) (hp : p ≠ []) (hclose : '}' ∉ p) :
    Render [(p, v)] (marker p) = (valueText v, none) := by
  have hget : mapGet [(p, v)] p = some v := by simp [mapGet]
  have hfind : FindAllStringSubmatch (marker p) = [(marker p, p)] := by
    have h := findAll_var p [] hp hclose
    rw [List.append_nil] at h
    rw [h, findAll_unfold]
    rfl
  have hrep : Replace (marker p) (marker p) (valueText v) = valueText v := by
    have h := replace_var_same p [] (valueText v)
    rw [List.append_nil] at h
    rw [h, replace_nil _ _ (marker_ne_nil p), List.append_nil]
  rw [render_eq_loop, hfind, renderLoop_cons_some _ _ _ _ _ v hget, hrep]
  rfl

theorem isDigit_of_head (ds : Str) (c : Char) (t : Str) (hall : ∀ x ∈ ds, isDigit x = true)
    (h : ds = c :: t) : isDigit c = true :=
  hall c (h ▸ List.mem_cons_self _ _)

/-- A canonical decimal form differs from a raw text written with a `+` sign,
with a zero before other digits, or as `-0`. -/
theorem canonical_ne_raw (s raw : Str) (hcanon : IsCanonicalDecimal s (rawInt raw))
    (hraw : raw.head? = some '+' ∨ (∃ d rest, signedDigits raw = '0' :: d :: rest) ∨
      raw = "-0".toList) : s ≠ raw := by
  obtain ⟨ds, hs, hne, hall, hlead, hval⟩ := hcanon
  intro heq
  obtain ⟨x, xs, hds⟩ := List.exists_cons_of_ne_nil hne
  have hx : isDigit x = true := isDigit_of_head ds x xs hall hds
  have hnozero : ∀ d rest, ds ≠ '0' :: d :: rest := by
    intro d rest h
    rcases hlead with h1 | h1
    · rw [h1] at h
      cases h
    · rw [h] at h1
      exact h1 rfl
  rcases hraw with hplus | ⟨d, rest, hzero⟩ | hminus
  · by_cases hi : rawInt raw < 0
    · rw [if_pos hi] at hs
      rw [← heq, hs] at hplus
      simp at hplus
    · rw [if_neg hi, List.nil_append] at hs
      rw [← heq, hs, hds] at hplus
      simp only [List.head?_cons, Option.some.injEq] at hplus
      rw [hplus] at hx
      exact absurd hx (by decide)
  · by_cases hi : rawInt raw < 0
    · rw [if_pos hi] at hs
      have hr : raw = '-' :: ds := by rw [← heq, hs]; rfl
      rw [hr] at hzero
      simp only [signedDigits, or_true, if_true] at hzero
      exact hnozero d rest hzero
    · rw [if_neg hi, List.nil_append] at hs
      have hr : raw = x :: xs := by rw [← heq, hs, hds]
      have hx1 : x ≠ '+' := fun h => by rw [h] at hx; exact absurd hx (by decide)
      have hx2 : x ≠ '-' := fun h => by rw [h] at hx; exact absurd hx (by decide)
      rw [hr] at hzero
      simp only [signedDigits, hx1, hx2, or_self, if_false] at hzero
      rw [← hds] at hzero
      exact hnozero d rest hzero
  · subst hminus
    have hi : ¬ rawInt "-0".toList < 0 := by decide
    rw [if_neg hi, List.nil_append] at hs
    rw [hs, hds] at heq
    have : x = '-' := by
      have := congrArg List.head? heq
      simpa using this
    rw [this] at hx
    exact absurd hx (by decide)

/-- C16: a raw text that `ValidateType` accepts for `integer`, converted by
`convertParamValue` and rendered through the template of one placeholder,
gives the canonical decimal form of the integer it denotes, which is not the
raw text when that has a `+` sign, a zero before other digits, or is `-0`; for
every other declared type an accepted raw text is rendered as it is. -/
theorem convert_render_pipeline (pf : Str → Bool) (raw p t : Str) (hp : p ≠ [])
    (hclose : '}' ∉ p) (hok : ValidateType pf raw t = none) :
    (t = "integer".toList →
      (Render [(p, convertParamValue t raw)] (marker p)).2 = none ∧
      IsDecimalInteger raw ∧
      IsCanonicalDecimal (Render [(p, convertParamValue t raw)] (marker p)).1 (rawInt raw) ∧
      ((raw.head? = some '+' ∨ (∃ d rest, signedDigits raw = '0' :: d :: rest) ∨
          raw = "-0".toList) →
        (Render [(p, convertParamValue t raw)] (marker p)).1 ≠ raw)) ∧
    (t ≠ "integer".toList →
      Render [(p, convertParamValue t raw)] (marker p) = (raw, none)) := by
  constructor
  · intro ht
    subst ht
    rw [validateType_integer] at hok
    have hatoi : (Atoi raw).2 = none := by
      by_cases h : (Atoi raw).2 = none
      · exact h
      · rw [if_pos h] at hok
        cases hok
    obtain ⟨hiff, hval⟩ := atoi_spec raw
    have hconv : convertParamValue "integer".toList raw = .int (rawInt raw) := by
      unfold convertParamValue
      rw [if_pos rfl, hval hatoi]
    rw [hconv, render_marker p _ hp hclose]
    have hcanon : IsCanonicalDecimal (valueText (.int (rawInt raw))) (rawInt raw) :=
      itoa_canonical (rawInt raw)
    exact ⟨rfl, (hiff.1 hatoi).1, hcanon, canonical_ne_raw _ raw hcanon⟩
  · intro ht
    rw [render_marker p _ hp hclose]
    by_cases hb : t = "boolean".toList
    · subst hb
      rw [validateType_boolean] at hok
      have hconv : convertParamValue "boolean".toList raw =
          .bool (decide (raw = "true".toList)) := by
        unfold convertParamValue
        rw [if_neg (by decide), if_pos rfl]
      rw [hconv]
      by_cases h1 : raw = "true".toList
      · subst h1
        rfl
      · by_cases h2 : raw = "false".toList
        · subst h2
          rfl
        · rw [if_pos ⟨h1, h2⟩] at hok
          cases hok
    · have hconv : convertParamValue t raw = .str raw := by
        unfold convertParamValue
        rw [if_neg ht, if_neg hb]
      rw [hconv]
      rfl

/-- Witness for C16: `+007` is accepted for `integer` and renders as `7`, and
`[1, 2]` is accepted for `array[int]` and renders as it is. -/
theorem convert_render_pipeline_witness :
    ValidateType (fun _ => false) "+007".toList "integer".toList = none ∧
    Render [("p".toList, convertParamValue "integer".toList "+007".toList)]
      (marker "p".toList) = ("7".toList, none) ∧
    (Render [("p".toList, convertParamValue "integer".toList "+007".toList)]
      (marker "p".toList)).1 ≠ "+007".toList ∧
    Render [("p".toList, convertParamValue "array[int]".toList "[1, 2]".toList)]
      (marker "p".toList) = ("[1, 2]".toList, none) :=
  ⟨by decide, by decide,
   ((convert_render_pipeline (fun _ => false) "+007".toList "p".toList "integer".toList
      (by decide) (by decide) (by decide)).1 rfl).2.2.2 (Or.inl (by decide)),
   (convert_render_pipeline (fun _ => false) "[1, 2]".toList "p".toList "array[int]".toList
      (by decide) (by decide) (by decide)).2 (by decide)⟩

/-! ## History: the stated properties -/

theorem marshalIndentError_eq_none (history : History) :
    marshalIndentError history = none ↔ Serialisable history.Entries := by
  unfold marshalIndentError Serialisable
  constructor
  · intro h x hx
    by_cases hany : history.Entries.any
        (fun e => decide (e.Timestamp.year < 0 ∨ e.Timestamp.year > 9999)) = true
    · rw [if_pos hany] at h
      cases h
    · have hx' : ¬ (x.Timestamp.year < 0 ∨ x.Timestamp.year > 9999) := by
        intro hbad
        apply hany
        rw [List.any_eq_true]
        exact ⟨x, hx, by simpa using hbad⟩
      omega
  · intro h
    rw [if_neg]
    intro hany
    rw [List.any_eq_true] at hany
    obtain ⟨x, hx, hbad⟩ := hany
    have := h x hx
    simp only [decide_eq_true_eq] at hbad
    omega

theorem marshalIndentError_of_not (history : History) (h : ¬ Serialisable history.Entries) :
    marshalIndentError history =
      some ("json: error calling MarshalJSON for type time.Time: ".toList ++
        "Time.MarshalJSON: year outside of range [0,9999]".toList) := by
  have hne : marshalIndentError history ≠ none :=
    fun hn => h ((marshalIndentError_eq_none history).1 hn)
  unfold marshalIndentError at hne ⊢
  by_cases hany : history.Entries.any
      (fun e => decide (e.Timestamp.year < 0 ∨ e.Timestamp.year > 9999)) = true
  · rw [if_pos hany]
  · rw [if_neg hany] at hne
    exact absurd rfl hne

theorem addEntry_of_load (file : HistoryFile) (writeErr : Option Str) (history : History)
    (e : Entry) (hload : LoadHistory file = (history, none)) :
    AddEntry file writeErr e =
      SaveHistory file writeErr { Entries := (e :: history.Entries).take 100 } := by
  unfold AddEntry
  rw [hload]
  simp only [List.singleton_append]
  by_cases hlen : (e :: history.Entries).length > 100
  · rw [if_pos hlen]
  · rw [if_neg hlen, List.take_of_length_le (by omega)]

/-- C14, the claim at an entry that has no JSON form: with no history file
(the stored list is empty) and a new entry whose timestamp is in the year
10000, `AddEntry` returns the serialisation error and leaves the file as it
was, so the stored list is not the new entry followed by the old ones. -/
theorem addEntry_unserialisable_counterexample :
    LoadHistory .missing = ({ Entries := [] }, none) ∧
    AddEntry .missing none exEntryYear10000 = (.missing, some serializingError) ∧
    (AddEntry .missing none exEntryYear10000).1 ≠
      .stored { Entries := (exEntryYear10000 :: []).take 100 } := by
  decide

/-- C14 as amended: when the history loads with the entry list `es`, the
entries to be stored have timestamps with a JSON form (years within 0 and
9999) and the file can be written, `AddEntry` leaves stored the first 100
elements of `e :: es`: the new entry first, then the previous entries in their
previous order; the length is `min (len es + 1) 100`, never more than 100, and
from 100 stored entries exactly the last one is dropped.  When a timestamp to
be stored has no JSON form, `AddEntry` returns the serialisation error and the
file is left as it was. -/
theorem addEntry_bounded (file : HistoryFile) (history : History) (e : Entry)
    (hload : LoadHistory file = (history, none)) :
    (Serialisable ((e :: history.Entries).take 100) →
      AddEntry file none e =
        (.stored { Entries := (e :: history.Entries).take 100 }, none)) ∧
    (¬ Serialisable ((e :: history.Entries).take 100) →
      ∀ writeErr, AddEntry file writeErr e = (file, some serializingError)) ∧
    ((e :: history.Entries).take 100).head? = some e ∧
    ((e :: history.Entries).take 100).tail = history.Entries.take 99 ∧
    ((e :: history.Entries).take 100).length = min (history.Entries.length + 1) 100 ∧
    ((e :: history.Entries).take 100).length ≤ 100 ∧
    (history.Entries.length = 100 →
      (e :: history.Entries).take 100 = e :: history.Entries.dropLast) := by
  refine ⟨?_, ?_, rfl, rfl, ?_, ?_, ?_⟩
  · intro hser
    rw [addEntry_of_load file none history e hload]
    have hm : marshalIndentError { Entries := List.take 100 (e :: history.Entries) } = none :=
      (marshalIndentError_eq_none _).2 hser
    unfold SaveHistory
    rw [hm]
  · intro hser writeErr
    rw [addEntry_of_load file writeErr history e hload]
    have hm := marshalIndentError_of_not { Entries := List.take 100 (e :: history.Entries) } hser
    unfold SaveHistory
    rw [hm]
    rfl
  · rw [List.length_take, List.length_cons]
    omega
  · rw [List.length_take]
    omega
  · intro h100
    rw [List.take_succ_cons, List.dropLast_eq_take, h100]

/-- Witness for C14: adding a 101st entry to 100 stored entries leaves exactly
100, the new one first and the oldest one dropped; adding to a missing file
stores the entry alone. -/
theorem addEntry_bounded_witness :
    AddEntry (.stored exHistory100) none (exEntry 100) =
      (.stored { Entries := exEntry 100 :: exHistory100.Entries.dropLast }, none) ∧
    (exEntry 100 :: exHistory100.Entries.dropLast).length = 100 ∧
    exHistory100.Entries.getLast? = some (exEntry 0) ∧
    AddEntry .missing none (exEntry 0) = (.stored { Entries := [exEntry 0] }, none) :=
  have h := addEntry_bounded (.stored exHistory100) exHistory100 (exEntry 100) rfl
  have hser : Serialisable ((exEntry 100 :: exHistory100.Entries).take 100) := by
    intro x hx
    have hx' := List.mem_of_mem_take hx
    simp only [exHistory100, List.mem_cons, List.mem_reverse, List.mem_map] at hx'
    rcases hx' with rfl | ⟨n, _, rfl⟩ <;> exact ⟨by simp [exEntry], by simp [exEntry]⟩
  ⟨by rw [h.1 hser, h.2.2.2.2.2.2 (by simp [exHistory100])],
   by simp [exHistory100],
   by simp [exHistory100, List.range_succ],
   (addEntry_bounded .missing { Entries := [] } (exEntry 0) rfl).1 (by decide)⟩

/-! ## Query parameters and headers: what the code does -/

theorem addQueryParams_err (params : List (Str × Value)) (qps : List QueryParam)
    (q : List (Str × List Str)) (historyParams : List (Str × Str)) :
    (addQueryParams params qps q historyParams).err = none := by
  unfold addQueryParams
  cases addQueryLoop params qps q historyParams
  rfl

/-- A query parameter whose value template fails to render leaves the query
values and the history map as they are. -/
theorem addQueryLoop_skip (params : List (Str × Value)) (param : QueryParam)
    (rest : List QueryParam) (q : List (Str × List Str)) (historyParams : List (Str × Str))
    (hfail : (Render params param.Value).2 ≠ none) :
    addQueryLoop params (param :: rest) q historyParams =
      addQueryLoop params rest q historyParams := by
  rw [addQueryLoop]
  cases hr : Render params param.Value with
  | mk value err =>
    rw [hr] at hfail
    have hcond : ¬ (err = none ∧ value ≠ []) := fun h => hfail h.1
    simp only [if_neg hcond]

/-- C15, what the code does where the claim says it returns an error: the
value template of the query parameter `q` references `missing`, which no
parameter provides, and `Render` fails on it; `addQueryParams` still returns
no error, adds nothing to the query and records nothing, and among other
query parameters it only leaves `q` out; `addHeaders` on the same template
returns the rendering error.  `addQueryParams` never returns an error, and a
query parameter that fails to render never changes its outcome. -/
theorem addQueryParams_swallows_render_error :
    Render [] exQueryMissing.Value = ([], some (parameterNotFound "missing".toList)) ∧
    addQueryParams [] [exQueryMissing] [] [] =
      { query := [], rawQuery := [], history := [], err := none } ∧
    addQueryParams [("x".toList, .str "v".toList)] exQueryParams [] [] =
      { query := [("b".toList, ["v".toList]), ("a".toList, ["1 2".toList])],
        rawQuery := "a=1+2&b=v".toList,
        history := [("b".toList, "v".toList), ("a".toList, "1 2".toList)],
        err := none } ∧
    addHeaders [] [("q".toList, exQueryMissing.Value)] [] [] =
      { header := [], history := [],
        err := some "rendering header template: parameter 'missing' not found".toList } ∧
    (∀ (params : List (Str × Value)) (qps : List QueryParam) (q : List (Str × List Str))
        (h : List (Str × Str)), (addQueryParams params qps q h).err = none) ∧
    (∀ (params : List (Str × Value)) (param : QueryParam) (rest : List QueryParam)
        (q : List (Str × List Str)) (h : List (Str × Str)),
      (Render params param.Value).2 ≠ none →
        addQueryParams params (param :: rest) q h = addQueryParams params rest q h) := by
  refine ⟨by decide, by decide, by decide, by decide, addQueryParams_err, ?_⟩
  intro params param rest q h hfail
  unfold addQueryParams
  rw [addQueryLoop_skip params param rest q h hfail]

/-- When no placeholder the scan finds has a `$` in its name, every text of a
placeholder in the template is one of the placeholders the scan finds. -/
theorem findAll_of_occurrence (n : Nat) :
    ∀ s : Str, s.length ≤ n → ∀ pre name post : Str, s = pre ++ marker name ++ post →
      name ≠ [] → '}' ∉ name → (∀ m ∈ FindAllStringSubmatch s, '$' ∉ m.2) →
      (marker name, name) ∈ FindAllStringSubmatch s := by
  induction n with
  | zero =>
    intro s hs pre name post hdec _ _ _
    have : s = [] := List.length_eq_zero.1 (Nat.le_zero.1 hs)
    rw [this] at hdec
    have := congrArg List.length hdec
    simp [marker] at this
    omega
  | succ k ih =>
    intro s hs pre name post hdec hne hclose hnames
    cases pre with
    | nil =>
      rw [hdec, List.nil_append, findAll_var _ _ hne hclose]
      exact List.mem_cons_self _ _
    | cons c pre' =>
      rw [findAll_unfold] at hnames ⊢
      cases hmh : matchHere s with
      | none =>
        rw [hmh] at hnames
        rw [hdec] at hnames hs ⊢
        simp only [List.cons_append] at hnames hs ⊢
        simp only [List.length_cons] at hs
        exact ih _ (by omega) pre' name post (by simp) hne hclose hnames
      | some r =>
        obtain ⟨nm, rest⟩ := r
        rw [hmh] at hnames
        simp only at hnames ⊢
        obtain ⟨hs', _, _⟩ := (matchHere_eq_some s nm rest).1 hmh
        have hnm : '$' ∉ nm := hnames (marker nm, nm) (List.mem_cons_self _ _)
        have hrestnames : ∀ m ∈ FindAllStringSubmatch rest, '$' ∉ m.2 :=
          fun m hm => hnames m (List.mem_cons_of_mem _ hm)
        have hlen : rest.length ≤ k := by
          have h1 : s.length = (marker nm).length + rest.length := by rw [hs']; simp
          simp [marker] at h1
          omega
        have hrest : ∃ pre'', rest = pre'' ++ marker name ++ post := by
          have heq : (c :: pre') ++ (marker name ++ post) = marker nm ++ rest := by
            rw [← hs', hdec, List.append_assoc]
          rcases List.append_eq_append_iff.1 heq with ⟨a', h1, h2⟩ | ⟨c', _, h2⟩
          · cases a' with
            | nil =>
              rw [List.nil_append] at h2
              exact ⟨[], by rw [← h2]; rfl⟩
            | cons x a'' =>
              exfalso
              have hx : x = '$' := by
                have := congrArg List.head? h2
                simp [marker] at this
                exact this.symm
              subst hx
              have h3 : '{' :: (nm ++ ['}']) = pre' ++ '$' :: a'' := by
                have h4 : '$' :: '{' :: (nm ++ ['}']) = c :: (pre' ++ '$' :: a'') := h1
                exact (List.cons.inj h4).2
              have hmem : '$' ∈ '{' :: (nm ++ ['}']) := by
                rw [h3]
                exact List.mem_append_right _ (List.mem_cons_self _ _)
              simp only [List.mem_cons, List.mem_append, List.mem_singleton,
                List.not_mem_nil, or_false] at hmem
              rcases hmem with h | h | h
              · exact absurd h (by decide)
              · exact hnm h
              · exact absurd h (by decide)
          · exact ⟨c', by rw [h2, List.append_assoc]⟩
        obtain ⟨pre'', hpre''⟩ := hrest
        exact List.mem_cons_of_mem _ (ih rest hlen pre'' name post hpre'' hne hclose hrestnames)

/-- A template whose scan finds no name with a `$`: the names of the
placeholders it contains are among the names the scan finds. -/
theorem containsPlaceholder_mem (tmpl name : Str)
    (hnames : ∀ m ∈ placeholderNames tmpl, '$' ∉ m) (h : ContainsPlaceholder tmpl name) :
    name ∈ placeholderNames tmpl := by
  obtain ⟨hne, hclose, pre, post, hdec⟩ := h
  have hnames' : ∀ m ∈ FindAllStringSubmatch tmpl, '$' ∉ m.2 :=
    fun m hm => hnames m.2 (List.mem_map.2 ⟨m, hm, rfl⟩)
  have := findAll_of_occurrence tmpl.length tmpl (le_refl _) pre name post hdec.symm hne hclose
    hnames'
  exact List.mem_map.2 ⟨(marker name, name), this, rfl⟩

/-! ## Rendering with a missing parameter -/

/-- When a placeholder the scan finds names an identifier that is not a key of
the parameter set, `Render` returns the empty string with the
parameter-not-found error for the leftmost such placeholder. -/
theorem render_missing_of_scan (params : List (Str × Value)) (tmpl : Str)
    (h : ∃ name ∈ placeholderNames tmpl, mapGet params name = none) :
    ∃ before name after, placeholderNames tmpl = before ++ name :: after ∧
      (∀ x ∈ before, mapGet params x ≠ none) ∧ mapGet params name = none ∧
      ContainsPlaceholder tmpl name ∧
      Render params tmpl = ([], some (parameterNotFound name)) := by
  have hex : ∃ m ∈ FindAllStringSubmatch tmpl, mapGet params m.2 = none := by
    obtain ⟨name, hname, hnone⟩ := h
    obtain ⟨m, hm, rfl⟩ := List.mem_map.1 hname
    exact ⟨m, hm, hnone⟩
  obtain ⟨before, m, after, hsplit, hbefore, hnone, hloop⟩ :=
    renderLoop_missing params (FindAllStringSubmatch tmpl) tmpl hex
  have hmem : m ∈ FindAllStringSubmatch tmpl := by
    rw [hsplit]
    exact List.mem_append_right _ (List.mem_cons_self _ _)
  obtain ⟨_, hne, hclose, hinfix⟩ := findAll_sound tmpl.length tmpl (le_refl _) m hmem
  refine ⟨before.map Prod.snd, m.2, after.map Prod.snd, ?_, ?_, hnone,
    ⟨hne, hclose, hinfix⟩, ?_⟩
  · simp [placeholderNames, hsplit]
  · intro x hx
    obtain ⟨y, hy, rfl⟩ := List.mem_map.1 hx
    exact hbefore y hy
  · rw [render_eq_loop]
    exact hloop

/-- C5, the claim at a placeholder inside another: the template
`$\x7ba$\x7bb\x7d` contains the placeholder text `$\x7bb\x7d`, and `b` is not a
key of the parameter set, whose only key is `a$\x7bb`; yet `Render` does not
fail: the scan finds the single placeholder `a$\x7bb` and the result is its
value `V`. -/
theorem render_nested_placeholder_counterexample :
    ContainsPlaceholder exTemplateNested "b".toList ∧
    mapGet exParamsNestedName "b".toList = none ∧
    placeholderNames exTemplateNested = ["a$\x7bb".toList] ∧
    Render exParamsNestedName exTemplateNested = ("V".toList, none) :=
  ⟨by decide, by rfl, by decide, by decide⟩

/-- C5 as amended: when one of the placeholders that the scan of `Render`
finds in the template (the leftmost, non-overlapping texts `$\x7bname\x7d`)
has a name that is not a key of the parameter set, which is so whenever the
template contains a placeholder text whose name is not a key and no name the
scan finds has a `$`, `Render` fails with the parameter-not-found error for
the leftmost placeholder found whose name is not a key (every placeholder
found before it is a key, and its text occurs in the template), and the
string returned with the error is empty. -/
theorem render_missing_parameter (params : List (Str × Value)) (tmpl : Str)
    (h : (∃ name ∈ placeholderNames tmpl, mapGet params name = none) ∨
      ((∀ m ∈ placeholderNames tmpl, '$' ∉ m) ∧
        ∃ name, ContainsPlaceholder tmpl name ∧ mapGet params name = none)) :
    ∃ before name after, placeholderNames tmpl = before ++ name :: after ∧
      (∀ x ∈ before, mapGet params x ≠ none) ∧ mapGet params name = none ∧
      ContainsPlaceholder tmpl name ∧
      Render params tmpl = ([], some (parameterNotFound name)) := by
  apply render_missing_of_scan
  rcases h with h | ⟨hnames, name, hcontains, hnone⟩
  · exact h
  · exact ⟨name, containsPlaceholder_mem tmpl name hnames hcontains, hnone⟩

/-- Witness for C5: `$\x7ba\x7d and $\x7bb\x7d` contains the placeholder `b`,
no name found in it has a `$`, and only `a` is a key: `Render` fails naming
`b` and returns the empty string, although `a` could be substituted. -/
theorem render_missing_parameter_witness :
    ((∀ m ∈ placeholderNames exTemplateAB, '$' ∉ m) ∧
      ∃ name, ContainsPlaceholder exTemplateAB name ∧ mapGet exParamsA name = none) ∧
    (∃ before name after, placeholderNames exTemplateAB = before ++ name :: after ∧
      (∀ x ∈ before, mapGet exParamsA x ≠ none) ∧ mapGet exParamsA name = none ∧
      ContainsPlaceholder exTemplateAB name ∧
      Render exParamsA exTemplateAB = ([], some (parameterNotFound name))) ∧
    Render exParamsA exTemplateAB = ([], some "parameter 'b' not found".toList) :=
  ⟨⟨by decide, "b".toList, by decide, by rfl⟩,
   render_missing_parameter exParamsA exTemplateAB
     (Or.inr ⟨by decide, "b".toList, by decide, by rfl⟩),
   by decide⟩

end Apicli
